import Mathlib

/-!
Verification development for the backtesting engine
(`src/strategies/{base,sma_cross,rsi_bb,vwap_reversion}.py`).

The pandas/numpy pipelines are embedded shallowly.  Scalar cells are modelled
by `PF`, an exact model of the IEEE floats the programs actually produce:
`NaN`, `+inf`, `-inf`, and finite values of the form `a + b*sqrt c` with
`a b c : ℚ`.  The `a + b*sqrt c` payload is needed because the source applies
a square root in exactly three places (rolling standard deviation for the
Bollinger bands and the volatility filter, and `sqrt(252*24*60)` in the
Sharpe ratio), always to a rational-valued argument, and the result then only
ever meets rational values again.  Arithmetic combinations that would leave
this fragment (e.g. adding two square roots with different radicands) are not
produced by any of the embedded pipelines; the operations below map them to
`NaN` and each such branch is marked `unreachable for the embedded code`.
Floating-point rounding is abstracted to exact arithmetic; zero is unsigned
(the sign of a float zero never changes any observable value of these
pipelines: the only negative zeros arise in the RSI loss column, and
`100 - 100/(1 - inf) = 100 = 100 - 100/(1 + inf)`).
-/

/- The `Rat` field operations are `irreducible` in Batteries, which blocks
elaborator-level evaluation of concrete instances (the kernel reduces them
fine).  Restore semireducibility so that `decide` can evaluate the embedded
pipelines on concrete inputs. -/
set_option allowUnsafeReducibility true in
attribute [semireducible] Rat.mul Rat.add Rat.sub Rat.inv Rat.div Rat.ofScientific

namespace Backtest

/-- Exact model of the float values reachable in the embedded pipelines:
`fin a b c` denotes `a + b * Real.sqrt c`. -/
inductive PF where
  | nan : PF
  | inf : PF
  | ninf : PF
  | fin (a b c : ℚ) : PF
deriving DecidableEq, Repr

namespace PF

/-- Newton iteration for the integer square root, with explicit fuel so that
it reduces by structural recursion (the library `Nat.sqrt` is defined by
well-founded recursion and does not evaluate inside the kernel). -/
def sqrtGo (n : ℕ) : ℕ → ℕ → ℕ
  | 0, x => x
  | fuel + 1, x =>
    let y := (x + n / x) / 2
    if y < x then sqrtGo n fuel y else x

/-- Whether `n` is a perfect square, returning its root.  The Newton
iteration result and its successor are both checked, so the answer is exact
regardless of which side of the floor the iteration lands on. -/
def natSqrtExact (n : ℕ) : Option ℕ :=
  if n = 0 then some 0
  else
    let r := sqrtGo n n n
    if r * r = n then some r
    else if (r + 1) * (r + 1) = n then some (r + 1)
    else none

/-- Exact rational square root, when it exists (`q` a square of a rational). -/
def ratSqrt (q : ℚ) : Option ℚ :=
  if q < 0 then none
  else
    match natSqrtExact q.num.toNat, natSqrtExact q.den with
    | some n, some d => some ((n : ℚ) / (d : ℚ))
    | _, _ => none

/-- Smart constructor keeping `fin` canonical: the radicand part is dropped
when its coefficient is zero, and perfect-square radicands are folded into
the rational part.  Canonical form: `b = 0 ∧ c = 0`, or `b ≠ 0`, `c > 0`,
`c` not a square of a rational. -/
def mk (a b c : ℚ) : PF :=
  if b = 0 ∨ c ≤ 0 then .fin a 0 0
  else
    match ratSqrt c with
    | some e => .fin (a + b * e) 0 0
    | none => .fin a b c

/-- Embed a rational as a (canonical) finite float value. -/
def rat (q : ℚ) : PF := .fin q 0 0

/-- Sign (as an integer in `{-1,0,1}`) of the finite value `a + b * sqrt c`,
assuming `c ≥ 0`.  Decided by squaring when `a` and `b` have opposite signs. -/
def signF (a b c : ℚ) : Int :=
  if b = 0 ∨ c ≤ 0 then (if 0 < a then 1 else if a < 0 then -1 else 0)
  else if a = 0 then (if 0 < b then 1 else -1)
  else if 0 < a ∧ 0 < b then 1
  else if a < 0 ∧ b < 0 then -1
  else if 0 < a then (if b ^ 2 * c < a ^ 2 then 1 else if a ^ 2 < b ^ 2 * c then -1 else 0)
  else (if b ^ 2 * c < a ^ 2 then -1 else if a ^ 2 < b ^ 2 * c then 1 else 0)

/-- Sum of two finite payloads, when representable in the fragment. -/
def finAdd (a b c d e f : ℚ) : Option (ℚ × ℚ × ℚ) :=
  if b = 0 then some (a + d, e, f)
  else if e = 0 then some (a + d, b, c)
  else if c = f then some (a + d, b + e, c)
  else none

/-- Product of two finite payloads, when representable in the fragment. -/
def finMul (a b c d e f : ℚ) : Option (ℚ × ℚ × ℚ) :=
  if b = 0 then some (a * d, a * e, f)
  else if e = 0 then some (a * d, d * b, c)
  else if c = f then some (a * d + b * e * c, a * e + d * b, c)
  else if a = 0 ∧ d = 0 then some (0, b * e, c * f)
  else none

def neg : PF → PF
  | nan => nan
  | inf => ninf
  | ninf => inf
  | fin a b c => fin (-a) (-b) c

def add : PF → PF → PF
  | nan, _ => nan
  | _, nan => nan
  | inf, ninf => nan
  | ninf, inf => nan
  | inf, _ => inf
  | _, inf => inf
  | ninf, _ => ninf
  | _, ninf => ninf
  | fin a b c, fin d e f =>
    match finAdd a b c d e f with
    | some (p, q, r) => mk p q r
    | none => nan

def sub (x y : PF) : PF := x.add y.neg

/-- Sign of a value; `nan` is given sign `0` and is always handled by the
callers before `sign` is consulted. -/
def sign : PF → Int
  | nan => 0
  | inf => 1
  | ninf => -1
  | fin a b c => signF a b c

def mul : PF → PF → PF
  | nan, _ => nan
  | _, nan => nan
  | inf, y => if y.sign = 1 then inf else if y.sign = -1 then ninf else nan
  | x, inf => if x.sign = 1 then inf else if x.sign = -1 then ninf else nan
  | ninf, y => if y.sign = 1 then ninf else if y.sign = -1 then inf else nan
  | x, ninf => if x.sign = 1 then ninf else if x.sign = -1 then inf else nan
  | fin a b c, fin d e f =>
    match finMul a b c d e f with
    | some (p, q, r) => mk p q r
    | none => nan

def div : PF → PF → PF
  | nan, _ => nan
  | _, nan => nan
  | inf, inf => nan
  | inf, ninf => nan
  | ninf, inf => nan
  | ninf, ninf => nan
  | inf, y => if y.sign = -1 then ninf else inf
  | ninf, y => if y.sign = -1 then inf else ninf
  | _, inf => rat 0
  | _, ninf => rat 0
  | fin a b c, fin d e f =>
    if signF d e f = 0 then
      -- division by (float) zero: 0/0 is NaN, x/0 is a signed infinity
      if signF a b c = 0 then nan else if signF a b c = 1 then inf else ninf
    else if e = 0 then mk (a / d) (b / d) c
    else
      -- 1/(d + e*sqrt f) = (d - e*sqrt f)/(d^2 - e^2*f); the denominator is
      -- nonzero for canonical nonzero values (f not a square)
      let den := d ^ 2 - e ^ 2 * f
      if den = 0 then nan
      else
        match finMul a b c (d / den) (-e / den) f with
        | some (p, q, r) => mk p q r
        | none => nan

def sqrt : PF → PF
  | nan => nan
  | inf => inf
  | ninf => nan
  | fin a b c =>
    if signF a b c = -1 then nan
    else if b = 0 then mk 0 1 a
    else nan  -- sqrt of an irrational value: unreachable for the embedded code

def isNaN : PF → Bool
  | nan => true
  | _ => false

/-- Float `==`: `NaN` compares unequal to everything. -/
def beq : PF → PF → Bool
  | nan, _ => false
  | _, nan => false
  | inf, inf => true
  | ninf, ninf => true
  | inf, _ => false
  | _, inf => false
  | ninf, _ => false
  | _, ninf => false
  | fin a b c, fin d e f =>
    match finAdd a b c (-d) (-e) f with
    | some (p, q, r) => signF p q r = 0
    | none => false

/-- Float `<`: any comparison involving `NaN` is `false`. -/
def lt : PF → PF → Bool
  | nan, _ => false
  | _, nan => false
  | ninf, ninf => false
  | ninf, _ => true
  | _, ninf => false
  | inf, _ => false
  | _, inf => true
  | fin a b c, fin d e f =>
    match finAdd a b c (-d) (-e) f with
    | some (p, q, r) => signF p q r = -1
    | none => false

/-- Float `<=`. -/
def le (x y : PF) : Bool := x.lt y || x.beq y

end PF

/-! ## Series combinators (pandas `Series` operations)

Columns are modelled index-wise as functions `ℕ → PF` together with a length,
and materialised as `List PF` via `mkCol`.  All rolling operations use the
pandas defaults: `rolling(w)` has `min_periods = w`, so a window that is
incomplete or contains a `NaN` yields `NaN`; reductions (`mean`, `std`,
`min`, `cumprod`, `cummax`) skip `NaN` entries (`skipna=True`). -/

/-- Materialise an index-wise column of length `n`. -/
def mkCol (n : ℕ) (f : ℕ → PF) : List PF := (List.range n).map f

/-- Read a materialised column back as an index-wise function. -/
def colAt (l : List PF) (i : ℕ) : PF := l.getD i .nan

/-- A list of rationals (an input column) read as a float column. -/
def ratAt (c : List ℚ) (i : ℕ) : PF := PF.rat (c.getD i 0)

/-- `Series.diff()`: `x[i] - x[i-1]`, `NaN` at index 0. -/
def diffAt (x : ℕ → PF) (i : ℕ) : PF :=
  if i = 0 then .nan else (x i).sub (x (i - 1))

/-- `Series.shift(1)`: `x[i-1]`, `NaN` at index 0. -/
def shift1At (x : ℕ → PF) (i : ℕ) : PF :=
  if i = 0 then .nan else x (i - 1)

/-- `Series.pct_change()`: `x[i]/x[i-1] - 1`, `NaN` at index 0.  (The pandas
forward-fill of `NaN` input values is irrelevant here: every series this is
applied to is a raw close-price column, which contains no `NaN`.) -/
def pctChangeAt (x : ℕ → PF) (i : ℕ) : PF :=
  if i = 0 then .nan else ((x i).div (x (i - 1))).sub (PF.rat 1)

/-- The trailing window `x[i-w+1..i]` of width `w` at index `i`. -/
def windowList (x : ℕ → PF) (w i : ℕ) : List PF :=
  (List.range w).map (fun j => x (i + 1 - w + j))

/-- Sum of a list of float values. -/
def pfSum (l : List PF) : PF := l.foldr PF.add (PF.rat 0)

/-- `Series.rolling(w).sum()`. -/
def rollingSumAt (x : ℕ → PF) (w i : ℕ) : PF :=
  if w ≤ i + 1 ∧ w ≠ 0 then
    if (windowList x w i).any PF.isNaN then .nan else pfSum (windowList x w i)
  else .nan

/-- `Series.rolling(w).mean()`. -/
def rollingMeanAt (x : ℕ → PF) (w i : ℕ) : PF :=
  if w ≤ i + 1 ∧ w ≠ 0 then
    if (windowList x w i).any PF.isNaN then .nan
    else (pfSum (windowList x w i)).div (PF.rat w)
  else .nan

/-- The mean used inside a standard-deviation computation. -/
def stdMean (ws : List PF) : PF := (pfSum ws).div (PF.rat ws.length)

/-- Sample standard deviation (`ddof = 1`) of a complete list of values:
`sqrt (Σ (x - mean)^2 / (n - 1))`.  For `n = 1` this divides `0` by `0`,
giving `NaN`, exactly as pandas does. -/
def sampleStd (ws : List PF) : PF :=
  ((pfSum (ws.map (fun v => (v.sub (stdMean ws)).mul (v.sub (stdMean ws))))).div
    (PF.rat ((ws.length : ℚ) - 1))).sqrt

/-- `Series.rolling(w).std()` (sample standard deviation, `ddof = 1`). -/
def rollingStdAt (x : ℕ → PF) (w i : ℕ) : PF :=
  if w ≤ i + 1 ∧ w ≠ 0 then
    if (windowList x w i).any PF.isNaN then .nan else sampleStd (windowList x w i)
  else .nan

/-- The non-`NaN` entries of a series. -/
def definedVals (l : List PF) : List PF := l.filter (fun v => !v.isNaN)

/-- `Series.mean()` (skipna): mean of the defined entries, `NaN` if none. -/
def seriesMean (l : List PF) : PF :=
  if (definedVals l).isEmpty then .nan
  else (pfSum (definedVals l)).div (PF.rat (definedVals l).length)

/-- `Series.std()` (skipna, `ddof = 1`): `NaN` with fewer than two defined
entries. -/
def seriesStd (l : List PF) : PF :=
  if (definedVals l).length ≤ 1 then .nan else sampleStd (definedVals l)

/-- One step of the running minimum. -/
def minStep (acc v : PF) : PF := if PF.lt v acc then v else acc

/-- `Series.min()` (skipna): `NaN` iff no entry is defined. -/
def seriesMin (l : List PF) : PF :=
  match definedVals l with
  | [] => .nan
  | x :: xs => xs.foldl minStep x

/-- `Series.cumprod()` (skipna): `NaN` inputs give `NaN` outputs but do not
contribute to the running product. -/
def cumprodAux : PF → List PF → List PF
  | _, [] => []
  | acc, v :: vs =>
    if v.isNaN then .nan :: cumprodAux acc vs
    else
      let acc2 := acc.mul v
      acc2 :: cumprodAux acc2 vs

def cumprodList (l : List PF) : List PF := cumprodAux (PF.rat 1) l

/-- `Series.cummax()` (skipna): `NaN` inputs give `NaN` outputs but do not
contribute to the running maximum. -/
def cummaxAux : Option PF → List PF → List PF
  | _, [] => []
  | acc, v :: vs =>
    if v.isNaN then .nan :: cummaxAux acc vs
    else
      match acc with
      | none => v :: cummaxAux (some v) vs
      | some m =>
        let m2 := if PF.lt m v then v else m
        m2 :: cummaxAux (some m2) vs

def cummaxList (l : List PF) : List PF := cummaxAux none l

/-- `Series.fillna(0)` on one cell. -/
def fillna0 (v : PF) : PF := if v.isNaN then PF.rat 0 else v

/-- `Series.diff()` of a materialised column. -/
def diffList (l : List PF) : List PF := mkCol l.length (diffAt (colAt l))

/-- `Series.shift(1)` of a materialised column. -/
def shift1List (l : List PF) : List PF := mkCol l.length (shift1At (colAt l))

/-- `Series.pct_change()` of a materialised column. -/
def pctChangeList (l : List PF) : List PF := mkCol l.length (pctChangeAt (colAt l))

/-! ## Constructor model (`StrategyBase.__init__` and the per-variant
`__init__` bodies)

`StrategyBase.__init__` only stores the frame.  `SMACrossover.__init__`
filters by the `symbol` column when that column exists and raises
`ValueError` when the resulting frame is empty; `RSIBB.__init__` and
`VWAPReversion.__init__` accept the frame as passed, with no filtering and
no emptiness check.  A raised `ValueError` is modelled by `Except.error`. -/

structure InputRow where
  symbol : String
  close : ℚ
  volume : ℚ
deriving DecidableEq, Repr

structure InputFrame where
  hasSymbolCol : Bool
  rows : List InputRow
deriving DecidableEq, Repr

/-- `SMACrossover.__init__`: filter to `symbol` if the column exists, then
raise if the frame is empty. -/
def smaInit (f : InputFrame) (symbol : String) : Except String InputFrame :=
  let f2 := if f.hasSymbolCol then
      InputFrame.mk f.hasSymbolCol (f.rows.filter (fun r => r.symbol = symbol))
    else f
  if f2.rows.isEmpty then Except.error ("No data found for symbol: " ++ symbol)
  else Except.ok f2

/-- `RSIBB.__init__`: stores the frame unchanged; no symbol filter, no
emptiness check. -/
def rsibbInit (f : InputFrame) : Except String InputFrame := Except.ok f

/-- `VWAPReversion.__init__`: stores the frame unchanged; no symbol filter,
no emptiness check. -/
def vwapInit (f : InputFrame) : Except String InputFrame := Except.ok f

/-- The drawdown series `df['Equity'] / df['Equity'].cummax() - 1` used by
both `get_metrics` implementations. -/
def ddSeries (eq : List PF) : List PF :=
  List.zipWith (fun x m => (x.div m).sub (PF.rat 1)) eq (cummaxList eq)

/-! ## RSIBB (`src/strategies/rsi_bb.py`)

`generate_signals` computes per-index columns over the raw close series,
then `dropna(subset=['RSI', 'BB_Lower', 'BB_Upper', 'Signal'])` keeps only
the rows where those four columns are defined; `run_backtest` and
`get_metrics` operate on the trimmed frame.  Parameters: `p = rsi_period`,
`w = bb_window`, `k = bb_std`. -/

namespace RSIBB

/-- `delta = df['Close'].diff()` -/
def deltaAt (close : List ℚ) (i : ℕ) : PF := diffAt (ratAt close) i

/-- `gain = delta.where(delta > 0, 0)` — the `NaN` at index 0 fails the
comparison, so it is replaced by `0` as well. -/
def gainAt (close : List ℚ) (i : ℕ) : PF :=
  if PF.lt (PF.rat 0) (deltaAt close i) then deltaAt close i else PF.rat 0

/-- `loss = -delta.where(delta < 0, 0)` (the resulting negative zeros do not
change any observable value; zero is unsigned here). -/
def lossAt (close : List ℚ) (i : ℕ) : PF :=
  PF.neg (if PF.lt (deltaAt close i) (PF.rat 0) then deltaAt close i else PF.rat 0)

/-- `avg_gain = gain.rolling(rsi_period).mean()` -/
def avgGainAt (close : List ℚ) (p i : ℕ) : PF := rollingMeanAt (gainAt close) p i

/-- `avg_loss = loss.rolling(rsi_period).mean()` -/
def avgLossAt (close : List ℚ) (p i : ℕ) : PF := rollingMeanAt (lossAt close) p i

/-- `rs = avg_gain / avg_loss` -/
def rsAt (close : List ℚ) (p i : ℕ) : PF :=
  (avgGainAt close p i).div (avgLossAt close p i)

/-- `df['RSI'] = 100 - (100 / (1 + rs))` -/
def rsiAt (close : List ℚ) (p i : ℕ) : PF :=
  (PF.rat 100).sub ((PF.rat 100).div ((PF.rat 1).add (rsAt close p i)))

/-- `df['BB_MA'] = df['Close'].rolling(bb_window).mean()` -/
def bbMAAt (close : List ℚ) (w i : ℕ) : PF := rollingMeanAt (ratAt close) w i

/-- `df['Close'].rolling(bb_window).std()` -/
def bbStdAt (close : List ℚ) (w i : ℕ) : PF := rollingStdAt (ratAt close) w i

/-- `df['BB_Upper'] = BB_MA + bb_std * std` -/
def bbUpperAt (close : List ℚ) (w : ℕ) (k : ℚ) (i : ℕ) : PF :=
  (bbMAAt close w i).add ((PF.rat k).mul (bbStdAt close w i))

/-- `df['BB_Lower'] = BB_MA - bb_std * std` -/
def bbLowerAt (close : List ℚ) (w : ℕ) (k : ℚ) (i : ℕ) : PF :=
  (bbMAAt close w i).sub ((PF.rat k).mul (bbStdAt close w i))

/-- `df['Signal'] = np.where((df['RSI'] < 30) & (df['Close'] < df['BB_Lower']), 1, 0)` -/
def signalAt (close : List ℚ) (p w : ℕ) (k : ℚ) (i : ℕ) : PF :=
  if PF.lt (rsiAt close p i) (PF.rat 30) && PF.lt (ratAt close i) (bbLowerAt close w k i)
  then PF.rat 1 else PF.rat 0

/-- `df['Position'] = df['Signal'].diff()` -/
def positionAt (close : List ℚ) (p w : ℕ) (k : ℚ) (i : ℕ) : PF :=
  diffAt (signalAt close p w k) i

/-- Row indices kept by `df.dropna(subset=['RSI','BB_Lower','BB_Upper','Signal'])`. -/
def keptIdx (close : List ℚ) (p w : ℕ) (k : ℚ) : List ℕ :=
  (List.range close.length).filter fun i =>
    !(rsiAt close p i).isNaN && !(bbLowerAt close w k i).isNaN &&
    !(bbUpperAt close w k i).isNaN && !(signalAt close p w k i).isNaN

/-- The trimmed `Close` column. -/
def closeKept (close : List ℚ) (p w : ℕ) (k : ℚ) : List PF :=
  (keptIdx close p w k).map (ratAt close)

/-- The trimmed `Signal` column. -/
def signalKept (close : List ℚ) (p w : ℕ) (k : ℚ) : List PF :=
  (keptIdx close p w k).map (signalAt close p w k)

/-- The trimmed `Position` column (values are diffs at the original indices). -/
def positionKept (close : List ℚ) (p w : ℕ) (k : ℚ) : List PF :=
  (keptIdx close p w k).map (positionAt close p w k)

/-- `df['Return'] = df['Close'].pct_change()` on the trimmed frame. -/
def returnCol (close : List ℚ) (p w : ℕ) (k : ℚ) : List PF :=
  pctChangeList (closeKept close p w k)

/-- `df['Strategy'] = df['Return'] * df['Position'].shift(1)` (no `fillna`). -/
def strategyCol (close : List ℚ) (p w : ℕ) (k : ℚ) : List PF :=
  List.zipWith PF.mul (returnCol close p w k) (shift1List (positionKept close p w k))

/-- `df['Equity'] = (1 + df['Strategy']).cumprod()` -/
def equityCol (close : List ℚ) (p w : ℕ) (k : ℚ) : List PF :=
  cumprodList ((strategyCol close p w k).map (fun s => (PF.rat 1).add s))

/-- `RSIBB.get_metrics`: `(Total Return, Sharpe Ratio, Max Drawdown)`.
`df['Equity'].iloc[-1]` raises `IndexError` on an empty frame, modelled by
`none`. -/
def metrics (close : List ℚ) (p w : ℕ) (k : ℚ) : Option (PF × PF × PF) :=
  match (equityCol close p w k).getLast? with
  | none => none
  | some e =>
    let strat := strategyCol close p w k
    let sd := seriesStd strat
    let sharpe :=
      if PF.beq sd (PF.rat 0) then PF.nan
      else ((seriesMean strat).div sd).mul (PF.sqrt (PF.rat (252 * 24 * 60)))
    let dd := seriesMin (ddSeries (equityCol close p w k))
    some (e.sub (PF.rat 1), sharpe, dd)

end RSIBB

/-! ## VWAPReversion (`src/strategies/vwap_reversion.py`)

Parameters: `thr = threshold`, `w = vwap_window`. -/

namespace VWAP

/-- `df['CumVolume'] = df['Volume'].rolling(vwap_window).sum()` -/
def cumVolumeAt (vol : List ℚ) (w i : ℕ) : PF := rollingSumAt (ratAt vol) w i

/-- `df['CumPV'] = (df['Close'] * df['Volume']).rolling(vwap_window).sum()` -/
def cumPVAt (close vol : List ℚ) (w i : ℕ) : PF :=
  rollingSumAt (fun j => (ratAt close j).mul (ratAt vol j)) w i

/-- `df['VWAP'] = df['CumPV'] / df['CumVolume']` -/
def vwapAt (close vol : List ℚ) (w i : ℕ) : PF :=
  (cumPVAt close vol w i).div (cumVolumeAt vol w i)

/-- `df['Deviation'] = (df['VWAP'] - df['Close']) / df['VWAP']` -/
def deviationAt (close vol : List ℚ) (w i : ℕ) : PF :=
  ((vwapAt close vol w i).sub (ratAt close i)).div (vwapAt close vol w i)

/-- `df['Signal'] = np.where(df['Deviation'] > threshold, 1, 0)` -/
def signalAt (close vol : List ℚ) (thr : ℚ) (w i : ℕ) : PF :=
  if PF.lt (PF.rat thr) (deviationAt close vol w i) then PF.rat 1 else PF.rat 0

/-- `df['Position'] = df['Signal'].diff()` -/
def positionAt (close vol : List ℚ) (thr : ℚ) (w i : ℕ) : PF :=
  diffAt (signalAt close vol thr w) i

/-- The `Signal` column. -/
def signalCol (close vol : List ℚ) (thr : ℚ) (w : ℕ) : List PF :=
  mkCol close.length (signalAt close vol thr w)

/-- The `Position` column. -/
def positionCol (close vol : List ℚ) (thr : ℚ) (w : ℕ) : List PF :=
  mkCol close.length (positionAt close vol thr w)

/-- `df['Return'] = df['Close'].pct_change()` -/
def returnCol (close : List ℚ) : List PF :=
  mkCol close.length (pctChangeAt (ratAt close))

/-- `df['Strategy'] = (df['Return'] * df['Position'].shift(1)).fillna(0)` -/
def strategyCol (close vol : List ℚ) (thr : ℚ) (w : ℕ) : List PF :=
  (List.zipWith PF.mul (returnCol close)
    (shift1List (positionCol close vol thr w))).map fillna0

/-- `df['Equity'] = (1 + df['Strategy']).cumprod()` -/
def equityCol (close vol : List ℚ) (thr : ℚ) (w : ℕ) : List PF :=
  cumprodList ((strategyCol close vol thr w).map (fun s => (PF.rat 1).add s))

/-- `VWAPReversion.get_metrics` (same body as `RSIBB.get_metrics`). -/
def metrics (close vol : List ℚ) (thr : ℚ) (w : ℕ) : Option (PF × PF × PF) :=
  match (equityCol close vol thr w).getLast? with
  | none => none
  | some e =>
    let strat := strategyCol close vol thr w
    let sd := seriesStd strat
    let sharpe :=
      if PF.beq sd (PF.rat 0) then PF.nan
      else ((seriesMean strat).div sd).mul (PF.sqrt (PF.rat (252 * 24 * 60)))
    let dd := seriesMin (ddSeries (equityCol close vol thr w))
    some (e.sub (PF.rat 1), sharpe, dd)

end VWAP

/-! ## SMACrossover (`src/strategies/sma_cross.py`)

Only `generate_signals` is embedded: `run_backtest` delegates to the external
`vectorbt` library and `get_metrics` is a stub (`pass`).  Parameters:
`sw = short_window`, `lw = long_window`, `vw = volatility_window`,
`thr = volatility_threshold`. -/

namespace SMA

/-- `df['SMA_short'] = df['Close'].rolling(short_window).mean()` -/
def smaShortAt (close : List ℚ) (sw i : ℕ) : PF := rollingMeanAt (ratAt close) sw i

/-- `df['SMA_long'] = df['Close'].rolling(long_window).mean()` -/
def smaLongAt (close : List ℚ) (lw i : ℕ) : PF := rollingMeanAt (ratAt close) lw i

/-- `df['Volatility'] = df['Close'].pct_change().rolling(volatility_window).std()` -/
def volatilityAt (close : List ℚ) (vw i : ℕ) : PF :=
  rollingStdAt (pctChangeAt (ratAt close)) vw i

/-- `df['Signal'] = np.where((SMA_short > SMA_long) & (Volatility > thr), 1, 0)` -/
def signalAt (close : List ℚ) (sw lw vw : ℕ) (thr : ℚ) (i : ℕ) : PF :=
  if PF.lt (smaLongAt close lw i) (smaShortAt close sw i) &&
     PF.lt (PF.rat thr) (volatilityAt close vw i)
  then PF.rat 1 else PF.rat 0

/-- `df['Position'] = df['Signal'].diff()` -/
def positionAt (close : List ℚ) (sw lw vw : ℕ) (thr : ℚ) (i : ℕ) : PF :=
  diffAt (signalAt close sw lw vw thr) i

/-- The `Signal` column. -/
def signalCol (close : List ℚ) (sw lw vw : ℕ) (thr : ℚ) : List PF :=
  mkCol close.length (signalAt close sw lw vw thr)

/-- The `Position` column. -/
def positionCol (close : List ℚ) (sw lw vw : ℕ) (thr : ℚ) : List PF :=
  mkCol close.length (positionAt close sw lw vw thr)

end SMA

/-! ## Arithmetic lemmas for `PF` -/

namespace PF

theorem rat_add_rat (p q : ℚ) : (rat p).add (rat q) = rat (p + q) := by
  simp [add, finAdd, mk, rat]

theorem neg_rat (q : ℚ) : (rat q).neg = rat (-q) := by
  simp [neg, rat]

theorem rat_sub_rat (p q : ℚ) : (rat p).sub (rat q) = rat (p - q) := by
  simp [sub, neg_rat, rat_add_rat, sub_eq_add_neg]

theorem rat_mul_rat (p q : ℚ) : (rat p).mul (rat q) = rat (p * q) := by
  simp [mul, finMul, mk, rat]

theorem signF_rat (a : ℚ) :
    signF a 0 0 = if 0 < a then 1 else if a < 0 then -1 else 0 := by
  simp [signF]

theorem signF_rat_zero : signF 0 0 0 = 0 := by simp [signF]

theorem rat_div_rat (p q : ℚ) (hq : q ≠ 0) :
    (rat p).div (rat q) = rat (p / q) := by
  have h : signF q 0 0 ≠ 0 := by
    rcases lt_or_gt_of_ne hq with h | h <;> simp [signF_rat, h, h.not_lt]
  simp [div, rat, h, mk]

theorem rat_div_zero_pos (p : ℚ) (hp : 0 < p) : (rat p).div (rat 0) = inf := by
  simp [div, rat, signF_rat, hp, hp.not_lt]

theorem rat_div_zero_neg (p : ℚ) (hp : p < 0) : (rat p).div (rat 0) = ninf := by
  simp [div, rat, signF_rat, hp, hp.not_lt]

theorem zero_div_zero : (rat 0).div (rat 0) = nan := by
  simp [div, rat, signF_rat_zero]

theorem isNaN_rat (q : ℚ) : (rat q).isNaN = false := rfl

theorem nan_add (x : PF) : PF.nan.add x = nan := by cases x <;> rfl

theorem add_nan (x : PF) : x.add PF.nan = nan := by cases x <;> rfl

theorem nan_mul (x : PF) : PF.nan.mul x = nan := by cases x <;> rfl

theorem mul_nan (x : PF) : x.mul PF.nan = nan := by cases x <;> rfl

theorem nan_div (x : PF) : PF.nan.div x = nan := by cases x <;> rfl

theorem div_nan (x : PF) : x.div PF.nan = nan := by cases x <;> rfl

theorem nan_sub (x : PF) : PF.nan.sub x = nan := by cases x <;> rfl

theorem sub_nan (x : PF) : x.sub PF.nan = nan := by cases x <;> rfl

theorem lt_rat_iff (p q : ℚ) : (rat p).lt (rat q) = true ↔ p < q := by
  show (match PF.finAdd p 0 0 (-q) (-0) 0 with
    | some (a, b, c) => PF.signF a b c = -1
    | none => false) = true ↔ p < q
  simp only [finAdd, if_pos rfl, signF, neg_zero, le_refl, or_true, if_true]
  split_ifs with h1 h2 <;> simp only [decide_eq_true_eq] <;> norm_num <;>
    push_neg at * <;> linarith

theorem beq_rat_iff (p q : ℚ) : (rat p).beq (rat q) = true ↔ p = q := by
  show (match PF.finAdd p 0 0 (-q) (-0) 0 with
    | some (a, b, c) => PF.signF a b c = 0
    | none => false) = true ↔ p = q
  simp only [finAdd, if_pos rfl, signF, neg_zero, le_refl, or_true, if_true]
  split_ifs with h1 h2 <;> simp only [decide_eq_true_eq] <;> norm_num
  · intro h
    subst h
    linarith
  · intro h
    subst h
    linarith
  · push_neg at h1 h2
    linarith

theorem le_rat_iff (p q : ℚ) : (rat p).le (rat q) = true ↔ p ≤ q := by
  constructor
  · intro h
    rcases Bool.or_eq_true_iff.mp h with h | h
    · exact ((lt_rat_iff p q).mp h).le
    · exact ((beq_rat_iff p q).mp h).le
  · intro h
    rcases lt_or_eq_of_le h with h | h
    · exact Bool.or_eq_true_iff.mpr (Or.inl ((lt_rat_iff p q).mpr h))
    · exact Bool.or_eq_true_iff.mpr (Or.inr ((beq_rat_iff p q).mpr h))

theorem lt_nan (x : PF) : x.lt nan = false := by cases x <;> rfl

theorem nan_lt (x : PF) : PF.nan.lt x = false := by cases x <;> rfl

theorem one_add_rat (q : ℚ) : (rat 1).add (rat q) = rat (1 + q) := rat_add_rat 1 q

/-- Values with no radical part.  Pipelines that never take a square root
(everything except the Bollinger/volatility standard deviations and the
Sharpe annualisation factor) stay in this fragment. -/
def basic : PF → Prop
  | fin _ b c => b = 0 ∧ c = 0
  | _ => True

/-- Finite rational values (no `NaN`, no infinities, no radical part). -/
def finRat (v : PF) : Prop := ∃ q : ℚ, v = rat q

theorem basic_rat (q : ℚ) : (rat q).basic := ⟨rfl, rfl⟩

theorem finRat_rat (q : ℚ) : (rat q).finRat := ⟨q, rfl⟩

theorem basic_of_finRat {v : PF} (h : v.finRat) : v.basic := by
  obtain ⟨q, rfl⟩ := h
  exact basic_rat q

theorem isNaN_of_finRat {v : PF} (h : v.finRat) : v.isNaN = false := by
  obtain ⟨q, rfl⟩ := h
  rfl

theorem basic_cases {v : PF} (h : v.basic) :
    v = nan ∨ v = inf ∨ v = ninf ∨ ∃ q : ℚ, v = rat q := by
  cases v with
  | nan => exact Or.inl rfl
  | inf => exact Or.inr (Or.inl rfl)
  | ninf => exact Or.inr (Or.inr (Or.inl rfl))
  | fin a b c =>
    obtain ⟨hb, hc⟩ := h
    subst hb
    subst hc
    exact Or.inr (Or.inr (Or.inr ⟨a, rfl⟩))

theorem basic_neg {x : PF} (hx : x.basic) : x.neg.basic := by
  rcases basic_cases hx with rfl | rfl | rfl | ⟨q, rfl⟩ <;>
    simp [neg, rat, basic]

theorem basic_add {x y : PF} (hx : x.basic) (hy : y.basic) : (x.add y).basic := by
  rcases basic_cases hx with rfl | rfl | rfl | ⟨p, rfl⟩ <;>
    rcases basic_cases hy with rfl | rfl | rfl | ⟨q, rfl⟩ <;>
    simp [add, rat, basic, finAdd, mk]

theorem basic_sub {x y : PF} (hx : x.basic) (hy : y.basic) : (x.sub y).basic := by
  exact basic_add hx (basic_neg hy)

theorem basic_mul {x y : PF} (hx : x.basic) (hy : y.basic) : (x.mul y).basic := by
  rcases basic_cases hx with rfl | rfl | rfl | ⟨p, rfl⟩ <;>
    rcases basic_cases hy with rfl | rfl | rfl | ⟨q, rfl⟩ <;>
    simp [mul, rat, basic, finMul, mk] <;> split_ifs <;> simp [basic]

theorem basic_div {x y : PF} (hx : x.basic) (hy : y.basic) : (x.div y).basic := by
  rcases basic_cases hx with rfl | rfl | rfl | ⟨p, rfl⟩ <;>
    rcases basic_cases hy with rfl | rfl | rfl | ⟨q, rfl⟩ <;>
    simp [div, rat, basic, finMul, mk] <;> split_ifs <;> simp [basic]

theorem finRat_add {x y : PF} (hx : x.finRat) (hy : y.finRat) : (x.add y).finRat := by
  obtain ⟨p, rfl⟩ := hx
  obtain ⟨q, rfl⟩ := hy
  rw [rat_add_rat]
  exact finRat_rat _

theorem finRat_mul {x y : PF} (hx : x.finRat) (hy : y.finRat) : (x.mul y).finRat := by
  obtain ⟨p, rfl⟩ := hx
  obtain ⟨q, rfl⟩ := hy
  rw [rat_mul_rat]
  exact finRat_rat _

theorem finRat_fillna {v : PF} : v.finRat ∨ v = nan → (Backtest.fillna0 v).finRat := by
  intro h
  rcases h with ⟨q, rfl⟩ | rfl
  · simpa [Backtest.fillna0, isNaN_rat] using finRat_rat q
  · exact ⟨0, rfl⟩

end PF

/-! ## List-level lemmas -/

theorem length_mkCol (n : ℕ) (f : ℕ → PF) : (mkCol n f).length = n := by
  simp [mkCol]

theorem colAt_mkCol {n i : ℕ} (f : ℕ → PF) (h : i < n) : colAt (mkCol n f) i = f i := by
  simp [mkCol, colAt, List.getD_eq_getElem?_getD, List.getElem?_map,
    List.getElem?_range h]

theorem length_cumprodAux (acc : PF) (l : List PF) :
    (cumprodAux acc l).length = l.length := by
  induction l generalizing acc with
  | nil => rfl
  | cons v vs ih =>
    simp only [cumprodAux]
    split_ifs <;> simp [ih]

theorem length_cumprodList (l : List PF) : (cumprodList l).length = l.length :=
  length_cumprodAux _ l

theorem length_cummaxAux (acc : Option PF) (l : List PF) :
    (cummaxAux acc l).length = l.length := by
  induction l generalizing acc with
  | nil => rfl
  | cons v vs ih =>
    simp only [cummaxAux]
    split_ifs <;> try simp [ih]
    cases acc <;> simp [ih]

theorem length_cummaxList (l : List PF) : (cummaxList l).length = l.length :=
  length_cummaxAux _ l

theorem mem_zipWith {f : PF → PF → PF} :
    ∀ {l1 l2 : List PF} {v : PF}, v ∈ List.zipWith f l1 l2 →
      ∃ x, x ∈ l1 ∧ ∃ y, y ∈ l2 ∧ v = f x y := by
  intro l1
  induction l1 with
  | nil => intro l2 v h; simp at h
  | cons a as ih =>
    intro l2 v h
    cases l2 with
    | nil => simp at h
    | cons b bs =>
      simp only [List.zipWith_cons_cons, List.mem_cons] at h
      rcases h with rfl | h
      · exact ⟨a, List.mem_cons_self a as, b, List.mem_cons_self b bs, rfl⟩
      · obtain ⟨x, hx, y, hy, rfl⟩ := ih h
        exact ⟨x, List.mem_cons_of_mem a hx, y, List.mem_cons_of_mem b hy, rfl⟩

theorem basic_mem_cumprodAux {acc : PF} {l : List PF} (hacc : acc.basic)
    (hl : ∀ v ∈ l, PF.basic v) : ∀ v ∈ cumprodAux acc l, PF.basic v := by
  induction l generalizing acc with
  | nil => intro v h; simp [cumprodAux] at h
  | cons a as ih =>
    intro v h
    have ha : a.basic := hl a (List.mem_cons_self a as)
    have has : ∀ v ∈ as, PF.basic v := fun v hv => hl v (List.mem_cons_of_mem a hv)
    simp only [cumprodAux] at h
    split_ifs at h with hnan
    · rcases List.mem_cons.mp h with rfl | h
      · trivial
      · exact ih hacc has v h
    · rcases List.mem_cons.mp h with rfl | h
      · exact PF.basic_mul hacc ha
      · exact ih (PF.basic_mul hacc ha) has v h

theorem basic_mem_cummaxAux {acc : Option PF} {l : List PF}
    (hacc : ∀ m, acc = some m → PF.basic m) (hl : ∀ v ∈ l, PF.basic v) :
    ∀ v ∈ cummaxAux acc l, PF.basic v := by
  induction l generalizing acc with
  | nil => intro v h; simp [cummaxAux] at h
  | cons a as ih =>
    intro v h
    have ha : a.basic := hl a (List.mem_cons_self a as)
    have has : ∀ v ∈ as, PF.basic v := fun v hv => hl v (List.mem_cons_of_mem a hv)
    simp only [cummaxAux] at h
    split_ifs at h with hnan
    · rcases List.mem_cons.mp h with rfl | h
      · trivial
      · exact ih hacc has v h
    · cases acc with
      | none =>
        rcases List.mem_cons.mp h with rfl | h
        · exact ha
        · exact ih (fun m hm => by cases hm; exact ha) has v h
      | some m =>
        have hm : m.basic := hacc m rfl
        have hm2 : PF.basic (if PF.lt m a then a else m) := by
          split_ifs <;> assumption
        rcases List.mem_cons.mp h with rfl | h
        · exact hm2
        · exact ih (fun x hx => by cases hx; exact hm2) has v h

theorem lt_inf_left (x : PF) : PF.inf.lt x = false := by cases x <;> rfl

theorem lt_ninf_right (x : PF) : x.lt PF.ninf = false := by cases x <;> rfl

/-- If a value compares strictly below a basic value that is `<= 0`, it is
itself `<= 0` (float comparisons; both values basic). -/
theorem le_zero_of_lt_of_le_zero {v acc : PF} (hv : v.basic) (hacc : acc.basic)
    (hlt : v.lt acc = true) (hle : acc.le (PF.rat 0) = true) :
    v.le (PF.rat 0) = true := by
  rcases PF.basic_cases hv with rfl | rfl | rfl | ⟨p, rfl⟩
  · rw [PF.nan_lt] at hlt
    exact absurd hlt (by simp)
  · rw [lt_inf_left] at hlt
    exact absurd hlt (by simp)
  · decide
  · rcases PF.basic_cases hacc with rfl | rfl | rfl | ⟨q, rfl⟩
    · rw [PF.lt_nan] at hlt
      exact absurd hlt (by simp)
    · exact absurd hle (by decide)
    · rw [lt_ninf_right] at hlt
      exact absurd hlt (by simp)
    · have hq : q ≤ 0 := (PF.le_rat_iff q 0).mp hle
      have hp : p < q := (PF.lt_rat_iff p q).mp hlt
      exact (PF.le_rat_iff p 0).mpr (by linarith)

theorem foldl_minStep_le_zero :
    ∀ (xs : List PF) (x : PF), x.basic → (∀ v ∈ xs, PF.basic v) →
      x.le (PF.rat 0) = true → (xs.foldl minStep x).le (PF.rat 0) = true := by
  intro xs
  induction xs with
  | nil => intro x _ _ hx; exact hx
  | cons v vs ih =>
    intro x hxb hvs hx
    have hvb : v.basic := hvs v (List.mem_cons_self v vs)
    have hstep : (minStep x v).basic := by
      unfold minStep
      split_ifs <;> assumption
    have hstep2 : (minStep x v).le (PF.rat 0) = true := by
      unfold minStep
      split_ifs with h
      · exact le_zero_of_lt_of_le_zero hvb hxb h hx
      · exact hx
    exact ih (minStep x v) hstep (fun w hw => hvs w (List.mem_cons_of_mem v hw)) hstep2

/-- The series minimum of a list headed by `0` whose tail is basic is `<= 0`. -/
theorem seriesMin_le_zero {t : List PF} (ht : ∀ v ∈ t, PF.basic v) :
    (seriesMin (PF.rat 0 :: t)).le (PF.rat 0) = true := by
  have hd : definedVals (PF.rat 0 :: t) = PF.rat 0 :: definedVals t := by
    simp [definedVals, PF.isNaN, PF.rat]
  have htd : ∀ v ∈ definedVals t, PF.basic v := by
    intro v hv
    exact ht v (List.mem_of_mem_filter hv)
  simp only [seriesMin, hd]
  exact foldl_minStep_le_zero (definedVals t) (PF.rat 0) (PF.basic_rat 0) htd (by decide)

theorem foldl_minStep_zero :
    ∀ (xs : List PF), (∀ v ∈ xs, v = PF.rat 0) →
      xs.foldl minStep (PF.rat 0) = PF.rat 0 := by
  intro xs
  induction xs with
  | nil => intro _; rfl
  | cons v vs ih =>
    intro h
    have hv : v = PF.rat 0 := h v (List.mem_cons_self v vs)
    subst hv
    have : minStep (PF.rat 0) (PF.rat 0) = PF.rat 0 := by decide
    simp only [List.foldl_cons, this]
    exact ih (fun w hw => h w (List.mem_cons_of_mem _ hw))

/-- The series minimum of a list headed by `0` whose other entries are all
`0` or `NaN` is exactly `0`. -/
theorem seriesMin_zero {t : List PF} (ht : ∀ v ∈ t, v = PF.rat 0 ∨ v = PF.nan) :
    seriesMin (PF.rat 0 :: t) = PF.rat 0 := by
  have hd : definedVals (PF.rat 0 :: t) = PF.rat 0 :: definedVals t := by
    simp [definedVals, PF.isNaN, PF.rat]
  have htd : ∀ v ∈ definedVals t, v = PF.rat 0 := by
    intro v hv
    have hm := List.mem_of_mem_filter hv
    have hn := List.of_mem_filter hv
    rcases ht v hm with rfl | rfl
    · rfl
    · simp [PF.isNaN] at hn
  simp only [seriesMin, hd]
  exact foldl_minStep_zero (definedVals t) htd

theorem basic_fillna {v : PF} (h : v.basic) : (fillna0 v).basic := by
  unfold fillna0
  split_ifs
  · exact PF.basic_rat 0
  · exact h

theorem getD_map_lt (g : PF → PF) {l : List PF} {i : ℕ} (h : i < l.length) :
    (l.map g).getD i PF.nan = g (l.getD i PF.nan) := by
  simp [List.getD_eq_getElem?_getD, List.getElem?_map, List.getElem?_eq_getElem h]

theorem getD_zipWith_lt (f : PF → PF → PF) {l1 l2 : List PF} {i : ℕ}
    (h1 : i < l1.length) (h2 : i < l2.length) :
    (List.zipWith f l1 l2).getD i PF.nan = f (l1.getD i PF.nan) (l2.getD i PF.nan) := by
  have h : i < (List.zipWith f l1 l2).length := by
    simp [List.length_zipWith]
    omega
  simp [List.getD_eq_getElem?_getD, List.getElem?_eq_getElem, h, h1, h2,
    List.getElem_zipWith]

theorem exists_cons_of_ne_nil {l : List PF} (h : l ≠ []) :
    ∃ t, l = l.getD 0 PF.nan :: t := by
  cases l with
  | nil => exact absurd rfl h
  | cons a t => exact ⟨t, rfl⟩

theorem mem_of_getD {l : List PF} {v : PF} (hv : v ∈ l) :
    ∃ i, i < l.length ∧ l.getD i PF.nan = v := by
  obtain ⟨i, hi, rfl⟩ := List.getElem_of_mem hv
  exact ⟨i, hi, by simp [List.getD_eq_getElem?_getD, List.getElem?_eq_getElem hi]⟩

namespace VWAP

theorem basic_signalAt (close vol : List ℚ) (thr : ℚ) (w i : ℕ) :
    (signalAt close vol thr w i).basic := by
  unfold signalAt
  split_ifs
  · exact PF.basic_rat 1
  · exact PF.basic_rat 0

theorem basic_positionAt (close vol : List ℚ) (thr : ℚ) (w i : ℕ) :
    (positionAt close vol thr w i).basic := by
  unfold positionAt diffAt
  split_ifs
  · trivial
  · exact PF.basic_sub (basic_signalAt _ _ _ _ _) (basic_signalAt _ _ _ _ _)

theorem basic_pctChangeAt (x : ℕ → PF) (hx : ∀ j, (x j).basic) (i : ℕ) :
    (pctChangeAt x i).basic := by
  unfold pctChangeAt
  split_ifs
  · trivial
  · exact PF.basic_sub (PF.basic_div (hx i) (hx (i - 1))) (PF.basic_rat 1)

theorem basic_mem_strategyCol (close vol : List ℚ) (thr : ℚ) (w : ℕ) :
    ∀ v ∈ strategyCol close vol thr w, PF.basic v := by
  intro v hv
  obtain ⟨x, hx, rfl⟩ := List.mem_map.mp hv
  obtain ⟨a, ha, b, hb, rfl⟩ := mem_zipWith hx
  have hab : a.basic := by
    obtain ⟨i, _, rfl⟩ := (by simpa [returnCol, mkCol] using ha :
      ∃ i < close.length, pctChangeAt (ratAt close) i = a)
    exact basic_pctChangeAt _ (fun j => PF.basic_rat _) i
  have hbb : b.basic := by
    obtain ⟨i, _, rfl⟩ := (by simpa [shift1List, mkCol] using hb :
      ∃ i < (positionCol close vol thr w).length,
        shift1At (colAt (positionCol close vol thr w)) i = b)
    unfold shift1At
    split_ifs
    · trivial
    · unfold colAt
      cases hgot : (positionCol close vol thr w)[i - 1]? with
      | none =>
        simp only [List.getD_eq_getElem?_getD, hgot, Option.getD_none]
        trivial
      | some p =>
        obtain ⟨hlt, hp⟩ := List.getElem?_eq_some.mp hgot
        have hpm : p ∈ positionCol close vol thr w := hp ▸ List.getElem_mem hlt
        obtain ⟨j, _, rfl⟩ := (by simpa [positionCol, mkCol] using hpm :
          ∃ j < close.length, positionAt close vol thr w j = p)
        simpa [List.getD_eq_getElem?_getD, hgot] using basic_positionAt close vol thr w j
  exact basic_fillna (PF.basic_mul hab hbb)

theorem length_strategyCol (close vol : List ℚ) (thr : ℚ) (w : ℕ) :
    (strategyCol close vol thr w).length = close.length := by
  simp [strategyCol, returnCol, shift1List, positionCol, mkCol, List.length_zipWith]

theorem strategy_head (close vol : List ℚ) (thr : ℚ) (w : ℕ)
    (h : close ≠ []) : (strategyCol close vol thr w).getD 0 PF.nan = PF.rat 0 := by
  have hn : 0 < close.length := List.length_pos.mpr h
  have h1 : 0 < (List.zipWith PF.mul (returnCol close)
      (shift1List (positionCol close vol thr w))).length := by
    simp [returnCol, shift1List, positionCol, mkCol, List.length_zipWith]
    omega
  have h2 : 0 < (returnCol close).length := by simp [returnCol, mkCol]; omega
  have h3 : 0 < (shift1List (positionCol close vol thr w)).length := by
    simp [shift1List, positionCol, mkCol]
    omega
  unfold strategyCol
  rw [getD_map_lt _ h1, getD_zipWith_lt _ h2 h3]
  rw [show (returnCol close).getD 0 PF.nan = pctChangeAt (ratAt close) 0 from
    colAt_mkCol _ hn]
  rw [show (shift1List (positionCol close vol thr w)).getD 0 PF.nan =
    shift1At (colAt (positionCol close vol thr w)) 0 from colAt_mkCol _ (by
      simpa [shift1List, positionCol, mkCol] using hn)]
  rfl

/-- For a nonempty input frame, the VWAP equity curve starts at `1.0` and its
remaining entries stay in the radical-free fragment. -/
theorem equity_cons (close vol : List ℚ) (thr : ℚ) (w : ℕ) (h : close ≠ []) :
    ∃ es, equityCol close vol thr w = PF.rat 1 :: es ∧ ∀ x ∈ es, PF.basic x := by
  have hn : 0 < close.length := List.length_pos.mpr h
  have hstne : strategyCol close vol thr w ≠ [] := by
    intro hc
    rw [← length_strategyCol close vol thr w, hc] at hn
    simp at hn
  obtain ⟨s2, hs2⟩ := exists_cons_of_ne_nil hstne
  rw [strategy_head close vol thr w h] at hs2
  have hbs : ∀ v ∈ s2, PF.basic v := by
    intro v hv
    exact basic_mem_strategyCol close vol thr w v (hs2 ▸ List.mem_cons_of_mem _ hv)
  refine ⟨cumprodAux (PF.rat 1) (s2.map (fun s => (PF.rat 1).add s)), ?_, ?_⟩
  · unfold equityCol
    rw [hs2]
    show cumprodList ((PF.rat 1).add (PF.rat 0) ::
      s2.map (fun s => (PF.rat 1).add s)) = _
    rw [PF.rat_add_rat]
    norm_num
    rfl
  · intro x hx
    refine basic_mem_cumprodAux (PF.basic_rat 1) ?_ x hx
    intro v hv
    obtain ⟨s, hs, rfl⟩ := List.mem_map.mp hv
    exact PF.basic_add (PF.basic_rat 1) (hbs s hs)

theorem length_equityCol (close vol : List ℚ) (thr : ℚ) (w : ℕ) :
    (equityCol close vol thr w).length = close.length := by
  unfold equityCol
  rw [length_cumprodList, List.length_map, length_strategyCol]

end VWAP

theorem getD_mem {l : List PF} {i : ℕ} (h : i < l.length) : l.getD i PF.nan ∈ l := by
  rw [List.getD_eq_getElem?_getD, List.getElem?_eq_getElem h]
  exact List.getElem_mem h

theorem cummax_cons_one (es : List PF) :
    cummaxList (PF.rat 1 :: es) = PF.rat 1 :: cummaxAux (some (PF.rat 1)) es := by
  simp [cummaxList, cummaxAux, PF.isNaN, PF.rat]

/-- `x / x - 1` is `0` or `NaN` for every basic value `x`. -/
theorem ratio_self {x : PF} (hx : x.basic) :
    (x.div x).sub (PF.rat 1) = PF.rat 0 ∨ (x.div x).sub (PF.rat 1) = PF.nan := by
  rcases PF.basic_cases hx with rfl | rfl | rfl | ⟨q, rfl⟩
  · right; rfl
  · right; rfl
  · right; rfl
  · by_cases hq : q = 0
    · subst hq
      right
      rw [PF.zero_div_zero]
      rfl
    · left
      rw [PF.rat_div_rat q q hq, div_self hq]
      rw [PF.rat_sub_rat]
      norm_num

theorem ddSeries_cons_one (es : List PF) :
    ddSeries (PF.rat 1 :: es) =
      PF.rat 0 :: List.zipWith (fun x m => (x.div m).sub (PF.rat 1)) es
        (cummaxAux (some (PF.rat 1)) es) := by
  unfold ddSeries
  rw [cummax_cons_one]
  simp only [List.zipWith_cons_cons]
  congr 1

/-- The VWAP max drawdown is `<= 0` for every nonempty input frame. -/
theorem vwap_dd_le_zero (close vol : List ℚ) (thr : ℚ) (w : ℕ) (h : close ≠ []) :
    (seriesMin (ddSeries (VWAP.equityCol close vol thr w))).le (PF.rat 0) = true := by
  obtain ⟨es, heq, hb⟩ := VWAP.equity_cons close vol thr w h
  rw [heq, ddSeries_cons_one]
  refine seriesMin_le_zero ?_
  intro v hv
  obtain ⟨x, hx, y, hy, rfl⟩ := mem_zipWith hv
  exact PF.basic_sub (PF.basic_div (hb x hx)
    (basic_mem_cummaxAux (fun m hm => by cases hm; exact PF.basic_rat 1) hb y hy))
    (PF.basic_rat 1)

/-- If the VWAP equity curve never dips below its running maximum, the max
drawdown is exactly `0` (never undefined). -/
theorem vwap_dd_zero (close vol : List ℚ) (thr : ℚ) (w : ℕ) (h : close ≠ [])
    (hnd : ∀ t < close.length,
      (VWAP.equityCol close vol thr w).getD t PF.nan =
        (cummaxList (VWAP.equityCol close vol thr w)).getD t PF.nan) :
    seriesMin (ddSeries (VWAP.equityCol close vol thr w)) = PF.rat 0 := by
  obtain ⟨es, heq, hb⟩ := VWAP.equity_cons close vol thr w h
  have hlen : (VWAP.equityCol close vol thr w).length = close.length :=
    VWAP.length_equityCol close vol thr w
  have hall : ∀ v ∈ ddSeries (VWAP.equityCol close vol thr w),
      v = PF.rat 0 ∨ v = PF.nan := by
    intro v hv
    obtain ⟨i, hi, rfl⟩ := mem_of_getD hv
    have hchain : (ddSeries (VWAP.equityCol close vol thr w)).length =
        (VWAP.equityCol close vol thr w).length := by
      unfold ddSeries
      rw [List.length_zipWith, length_cummaxList, min_self]
    have hie : i < (VWAP.equityCol close vol thr w).length := hchain ▸ hi
    have hic : i < (cummaxList (VWAP.equityCol close vol thr w)).length := by
      rw [length_cummaxList]
      exact hie
    unfold ddSeries
    rw [getD_zipWith_lt _ hie hic]
    rw [← hnd i (hlen ▸ hie)]
    have hxb : ((VWAP.equityCol close vol thr w).getD i PF.nan).basic := by
      have hmem := getD_mem hie
      rw [heq] at hmem ⊢
      rcases List.mem_cons.mp hmem with he | he
      · rw [he]
        exact PF.basic_rat 1
      · exact hb _ he
    exact ratio_self hxb
  rw [heq, ddSeries_cons_one]
  refine seriesMin_zero ?_
  intro v hv
  refine hall v ?_
  rw [heq, ddSeries_cons_one]
  exact List.mem_cons_of_mem _ hv

theorem getLast?_some {l : List PF} (h : l ≠ []) : ∃ e, l.getLast? = some e := by
  cases hl : l.getLast? with
  | none => exact absurd (List.getLast?_eq_none_iff.mp hl) h
  | some e => exact ⟨e, rfl⟩

/-- Structure of `VWAPReversion.get_metrics` on a nonempty frame. -/
theorem VWAP.metrics_eq_vwap (close vol : List ℚ) (thr : ℚ) (w : ℕ) (h : close ≠ []) :
    ∃ e, (VWAP.equityCol close vol thr w).getLast? = some e ∧
      VWAP.metrics close vol thr w = some (e.sub (PF.rat 1),
        (if (seriesStd (VWAP.strategyCol close vol thr w)).beq (PF.rat 0) then PF.nan
         else ((seriesMean (VWAP.strategyCol close vol thr w)).div
            (seriesStd (VWAP.strategyCol close vol thr w))).mul
            (PF.sqrt (PF.rat (252 * 24 * 60)))),
        seriesMin (ddSeries (VWAP.equityCol close vol thr w))) := by
  have hne : VWAP.equityCol close vol thr w ≠ [] := by
    intro hc
    have := VWAP.length_equityCol close vol thr w
    rw [hc] at this
    exact h (List.eq_nil_of_length_eq_zero this.symm)
  obtain ⟨e, he⟩ := getLast?_some hne
  refine ⟨e, he, ?_⟩
  unfold VWAP.metrics
  rw [he]

/-- Structure of `RSIBB.get_metrics` on a frame that is nonempty after
`dropna`. -/
theorem RSIBB.metrics_eq_rsibb (close : List ℚ) (p w : ℕ) (k : ℚ)
    (h : RSIBB.equityCol close p w k ≠ []) :
    ∃ e, (RSIBB.equityCol close p w k).getLast? = some e ∧
      RSIBB.metrics close p w k = some (e.sub (PF.rat 1),
        (if (seriesStd (RSIBB.strategyCol close p w k)).beq (PF.rat 0) then PF.nan
         else ((seriesMean (RSIBB.strategyCol close p w k)).div
            (seriesStd (RSIBB.strategyCol close p w k))).mul
            (PF.sqrt (PF.rat (252 * 24 * 60)))),
        seriesMin (ddSeries (RSIBB.equityCol close p w k))) := by
  obtain ⟨e, he⟩ := getLast?_some h
  refine ⟨e, he, ?_⟩
  unfold RSIBB.metrics
  rw [he]

/-! ## Constant (flat) series lemmas -/

theorem ratAt_replicate {n : ℕ} {q : ℚ} {j : ℕ} (h : j < n) :
    ratAt (List.replicate n q) j = PF.rat q := by
  unfold ratAt
  rw [List.getD_eq_getElem?_getD, List.getElem?_replicate]
  simp [h]

theorem pfSum_replicate_rat (m : ℕ) (q : ℚ) :
    pfSum (List.replicate m (PF.rat q)) = PF.rat (m * q) := by
  induction m with
  | zero => simp [pfSum]
  | succ m ih =>
    rw [List.replicate_succ]
    show (PF.rat q).add (pfSum (List.replicate m (PF.rat q))) = _
    rw [ih, PF.rat_add_rat]
    congr 1
    push_cast
    ring

theorem windowList_const {x : ℕ → PF} {q : ℚ} {w i : ℕ}
    (hx : ∀ j < w, x (i + 1 - w + j) = PF.rat q) :
    windowList x w i = List.replicate w (PF.rat q) := by
  refine List.eq_replicate_iff.mpr ⟨by simp [windowList], ?_⟩
  intro v hv
  obtain ⟨j, hj, hv2⟩ := (by simpa [windowList] using hv :
    ∃ j < w, x (i + 1 - w + j) = v)
  rw [← hv2]
  exact hx j hj

theorem rollingMeanAt_const {x : ℕ → PF} {q : ℚ} {w i : ℕ} (hw : w ≠ 0)
    (hwi : w ≤ i + 1) (hx : ∀ j < w, x (i + 1 - w + j) = PF.rat q) :
    rollingMeanAt x w i = PF.rat q := by
  unfold rollingMeanAt
  rw [if_pos ⟨hwi, hw⟩, windowList_const hx]
  have hnonan : (List.replicate w (PF.rat q)).any PF.isNaN = false := by
    simp [List.any_eq_true, List.mem_replicate, PF.isNaN_rat]
  rw [if_neg (by simp [hnonan]), pfSum_replicate_rat]
  rw [PF.rat_div_rat _ _ (by exact_mod_cast hw)]
  congr 1
  field_simp

theorem rollingSumAt_const {x : ℕ → PF} {q : ℚ} {w i : ℕ} (hw : w ≠ 0)
    (hwi : w ≤ i + 1) (hx : ∀ j < w, x (i + 1 - w + j) = PF.rat q) :
    rollingSumAt x w i = PF.rat (w * q) := by
  unfold rollingSumAt
  rw [if_pos ⟨hwi, hw⟩, windowList_const hx]
  have hnonan : (List.replicate w (PF.rat q)).any PF.isNaN = false := by
    simp [List.any_eq_true, List.mem_replicate, PF.isNaN_rat]
  rw [if_neg (by simp [hnonan]), pfSum_replicate_rat]

theorem rollingMeanAt_undef {x : ℕ → PF} {w i : ℕ}
    (h : ¬(w ≤ i + 1 ∧ w ≠ 0)) : rollingMeanAt x w i = PF.nan := by
  unfold rollingMeanAt
  rw [if_neg h]

theorem rollingSumAt_undef {x : ℕ → PF} {w i : ℕ}
    (h : ¬(w ≤ i + 1 ∧ w ≠ 0)) : rollingSumAt x w i = PF.nan := by
  unfold rollingSumAt
  rw [if_neg h]

namespace RSIBB

theorem delta_flat {n : ℕ} {q : ℚ} {i : ℕ} (hi : i < n) :
    deltaAt (List.replicate n q) i = if i = 0 then PF.nan else PF.rat 0 := by
  unfold deltaAt diffAt
  split_ifs with h
  · rfl
  · rw [ratAt_replicate hi, ratAt_replicate (lt_of_le_of_lt (Nat.sub_le i 1) hi),
      PF.rat_sub_rat]
    norm_num

theorem gain_flat {n : ℕ} {q : ℚ} {i : ℕ} (hi : i < n) :
    gainAt (List.replicate n q) i = PF.rat 0 := by
  unfold gainAt
  rw [delta_flat hi]
  by_cases h0 : i = 0 <;>
    simp [h0, PF.lt_nan, (by decide : PF.lt (PF.rat 0) (PF.rat 0) = false)]

theorem loss_flat {n : ℕ} {q : ℚ} {i : ℕ} (hi : i < n) :
    lossAt (List.replicate n q) i = PF.rat 0 := by
  unfold lossAt
  rw [delta_flat hi]
  by_cases h0 : i = 0 <;>
    simp [h0, PF.nan_lt, (by decide : PF.lt (PF.rat 0) (PF.rat 0) = false),
      PF.neg_rat]

theorem avgGain_flat {n : ℕ} {q : ℚ} {p i : ℕ} (hi : i < n) :
    avgGainAt (List.replicate n q) p i =
      if p ≤ i + 1 ∧ p ≠ 0 then PF.rat 0 else PF.nan := by
  unfold avgGainAt
  split_ifs with hp
  · refine rollingMeanAt_const hp.2 hp.1 ?_
    intro j hj
    exact gain_flat (by omega)
  · exact rollingMeanAt_undef hp

theorem avgLoss_flat {n : ℕ} {q : ℚ} {p i : ℕ} (hi : i < n) :
    avgLossAt (List.replicate n q) p i =
      if p ≤ i + 1 ∧ p ≠ 0 then PF.rat 0 else PF.nan := by
  unfold avgLossAt
  split_ifs with hp
  · refine rollingMeanAt_const hp.2 hp.1 ?_
    intro j hj
    exact loss_flat (by omega)
  · exact rollingMeanAt_undef hp

theorem rsi_of_rs_nan {close : List ℚ} {p i : ℕ} (h : rsAt close p i = PF.nan) :
    rsiAt close p i = PF.nan := by
  unfold rsiAt
  rw [h, PF.add_nan, PF.div_nan, PF.sub_nan]

/-- On a constant series the RSI is undefined (`0/0`) at every in-range
index, for every period. -/
theorem rsi_flat {n : ℕ} {q : ℚ} {p i : ℕ} (hi : i < n) :
    rsiAt (List.replicate n q) p i = PF.nan := by
  refine rsi_of_rs_nan ?_
  unfold rsAt
  rw [avgGain_flat hi, avgLoss_flat hi]
  split_ifs
  · exact PF.zero_div_zero
  · exact PF.nan_div _

theorem kept_flat (n : ℕ) (q : ℚ) (p w : ℕ) (k : ℚ) :
    keptIdx (List.replicate n q) p w k = [] := by
  rw [keptIdx, List.filter_eq_nil_iff]
  intro i hi
  rw [List.length_replicate] at hi
  rw [rsi_flat (List.mem_range.mp hi)]
  simp [PF.isNaN]

theorem equity_of_kept_nil (close : List ℚ) (p w : ℕ) (k : ℚ)
    (h : keptIdx close p w k = []) : equityCol close p w k = [] := by
  unfold equityCol strategyCol returnCol closeKept
  rw [h]
  rfl

/-- `RSIBB.get_metrics` raises `IndexError` (modelled `none`) on every
constant-price series: the RSI column is entirely `NaN`, `dropna` empties
the frame, and `Equity.iloc[-1]` is out of bounds. -/
theorem metrics_flat_rsibb (n : ℕ) (q : ℚ) (p w : ℕ) (k : ℚ) :
    metrics (List.replicate n q) p w k = none := by
  unfold metrics
  rw [equity_of_kept_nil _ _ _ _ (kept_flat n q p w k)]
  rfl

/-- The RSI at index 0 is undefined for every close series and period: the
first `diff` is `NaN`, so either the window is incomplete or the ratio is
`0/0`. -/
theorem rsiAt_zero (close : List ℚ) (p : ℕ) : rsiAt close p 0 = PF.nan := by
  refine rsi_of_rs_nan ?_
  unfold rsAt avgGainAt avgLossAt
  match p with
  | 0 =>
    rw [rollingMeanAt_undef (by omega), rollingMeanAt_undef (by omega)]
    exact PF.nan_div _
  | 1 =>
    have hg : gainAt close 0 = PF.rat 0 := rfl
    have hl : lossAt close 0 = PF.rat (-0) := rfl
    have hwg : windowList (gainAt close) 1 0 = [gainAt close 0] := by
      rw [windowList, show List.range 1 = [0] from rfl]
      simp
    have hwl : windowList (lossAt close) 1 0 = [lossAt close 0] := by
      rw [windowList, show List.range 1 = [0] from rfl]
      simp
    unfold rollingMeanAt
    rw [if_pos ⟨le_refl 1, one_ne_zero⟩, hwg, hwl, hg, hl]
    decide
  | p + 2 =>
    rw [rollingMeanAt_undef (by omega), rollingMeanAt_undef (by omega)]
    exact PF.nan_div _

theorem length_equityCol_eq_kept (close : List ℚ) (p w : ℕ) (k : ℚ) :
    (equityCol close p w k).length = (keptIdx close p w k).length := by
  unfold equityCol strategyCol returnCol
  rw [length_cumprodList, List.length_map, List.length_zipWith]
  simp [pctChangeList, shift1List, mkCol, closeKept, positionKept]

/-- After `dropna`, the RSIBB frame is strictly shorter than every nonempty
input: row 0 always has an undefined RSI. -/
theorem kept_lt_length (close : List ℚ) (p w : ℕ) (k : ℚ) (h : close ≠ []) :
    (keptIdx close p w k).length < close.length := by
  obtain ⟨m, hm⟩ : ∃ m, close.length = m + 1 := by
    cases hl : close.length with
    | zero => exact absurd (List.eq_nil_of_length_eq_zero hl) h
    | succ m => exact ⟨m, rfl⟩
  unfold keptIdx
  rw [hm, List.range_succ_eq_map]
  have h0 : (!(rsiAt close p 0).isNaN && !(bbLowerAt close w k 0).isNaN &&
      !(bbUpperAt close w k 0).isNaN && !(signalAt close p w k 0).isNaN) = false := by
    rw [rsiAt_zero]
    simp [PF.isNaN]
  rw [List.filter_cons_of_neg (by simp [h0])]
  calc (List.filter _ ((List.range m).map Nat.succ)).length
      ≤ ((List.range m).map Nat.succ).length := List.length_filter_le _ _
    _ = m := by simp
    _ < m + 1 := Nat.lt_succ_self m

end RSIBB

theorem lt_rat_false_of_le {p q : ℚ} (h : q ≤ p) :
    PF.lt (PF.rat p) (PF.rat q) = false := by
  cases hb : PF.lt (PF.rat p) (PF.rat q) with
  | false => rfl
  | true => exact absurd ((PF.lt_rat_iff p q).mp hb) (not_lt.mpr h)

namespace VWAP

theorem deviation_flat {n : ℕ} {q v : ℚ} {w i : ℕ} (hi : i < n) :
    deviationAt (List.replicate n q) (List.replicate n v) w i = PF.rat 0 ∨
      deviationAt (List.replicate n q) (List.replicate n v) w i = PF.nan := by
  unfold deviationAt vwapAt cumPVAt cumVolumeAt
  by_cases hw : w ≤ i + 1 ∧ w ≠ 0
  · have hcv : rollingSumAt (ratAt (List.replicate n v)) w i = PF.rat (w * v) :=
      rollingSumAt_const hw.2 hw.1 (fun j hj => ratAt_replicate (by omega))
    have hcp : rollingSumAt
        (fun j => (ratAt (List.replicate n q) j).mul (ratAt (List.replicate n v) j)) w i =
        PF.rat (w * (q * v)) := by
      refine rollingSumAt_const hw.2 hw.1 ?_
      intro j hj
      rw [ratAt_replicate (by omega : i + 1 - w + j < n),
        ratAt_replicate (by omega : i + 1 - w + j < n), PF.rat_mul_rat]
    rw [hcv, hcp]
    by_cases hv : (w : ℚ) * v = 0
    · have hnum : (w : ℚ) * (q * v) = 0 := by
        rw [show (w : ℚ) * (q * v) = q * ((w : ℚ) * v) by ring, hv, mul_zero]
      rw [hnum, hv, PF.zero_div_zero, PF.nan_sub, PF.nan_div]
      exact Or.inr rfl
    · rw [PF.rat_div_rat _ _ hv]
      by_cases hq : q = 0
      · have : (w : ℚ) * (q * v) / ((w : ℚ) * v) = 0 := by
          rw [hq]
          simp
        rw [this, ratAt_replicate hi, hq, PF.rat_sub_rat, sub_zero, PF.zero_div_zero]
        exact Or.inr rfl
      · have : (w : ℚ) * (q * v) / ((w : ℚ) * v) = q := by
          field_simp
          ring
        rw [this, ratAt_replicate hi, PF.rat_sub_rat, sub_self,
          PF.rat_div_rat _ _ hq, zero_div]
        exact Or.inl rfl
  · rw [rollingSumAt_undef hw, rollingSumAt_undef hw, PF.nan_div, PF.nan_sub,
      PF.nan_div]
    exact Or.inr rfl

theorem signal_flat_vwap {n : ℕ} {q v thr : ℚ} {w i : ℕ} (hthr : 0 ≤ thr) (hi : i < n) :
    signalAt (List.replicate n q) (List.replicate n v) thr w i = PF.rat 0 := by
  unfold signalAt
  rcases deviation_flat (q := q) (v := v) (w := w) hi with hd | hd <;> rw [hd]
  · rw [if_neg (by simp [lt_rat_false_of_le hthr])]
  · rw [if_neg (by simp [PF.lt_nan])]

theorem position_flat {n : ℕ} {q v thr : ℚ} {w i : ℕ} (hthr : 0 ≤ thr) (hi : i < n) :
    positionAt (List.replicate n q) (List.replicate n v) thr w i = PF.nan ∨
      positionAt (List.replicate n q) (List.replicate n v) thr w i = PF.rat 0 := by
  unfold positionAt diffAt
  split_ifs with h0
  · exact Or.inl rfl
  · rw [signal_flat_vwap hthr hi, signal_flat_vwap hthr (by omega : i - 1 < n), PF.rat_sub_rat]
    norm_num

theorem pct_flat {n : ℕ} {q : ℚ} {i : ℕ} (hi : i < n) :
    pctChangeAt (ratAt (List.replicate n q)) i = PF.nan ∨
      pctChangeAt (ratAt (List.replicate n q)) i = PF.rat 0 := by
  unfold pctChangeAt
  split_ifs with h0
  · exact Or.inl rfl
  · rw [ratAt_replicate hi, ratAt_replicate (by omega : i - 1 < n)]
    by_cases hq : q = 0
    · rw [hq, PF.zero_div_zero, PF.nan_sub]
      exact Or.inl rfl
    · rw [PF.rat_div_rat _ _ hq, div_self hq, PF.rat_sub_rat, sub_self]
      exact Or.inr rfl

theorem strategy_flat {n : ℕ} {q v thr : ℚ} {w : ℕ} (hthr : 0 ≤ thr) :
    strategyCol (List.replicate n q) (List.replicate n v) thr w =
      List.replicate n (PF.rat 0) := by
  refine List.eq_replicate_iff.mpr ⟨?_, ?_⟩
  · rw [length_strategyCol, List.length_replicate]
  · intro x hx
    obtain ⟨y, hy, rfl⟩ := List.mem_map.mp hx
    obtain ⟨a, ha, b, hb, rfl⟩ := mem_zipWith hy
    have haq : a = PF.nan ∨ a = PF.rat 0 := by
      obtain ⟨i, hin, rfl⟩ := (by
        simpa [returnCol, mkCol, List.length_replicate] using ha :
        ∃ i < n, pctChangeAt (ratAt (List.replicate n q)) i = a)
      exact pct_flat hin
    have hbq : b = PF.nan ∨ b = PF.rat 0 := by
      obtain ⟨i, hin, rfl⟩ := (by
        simpa [shift1List, positionCol, mkCol, List.length_replicate] using hb :
        ∃ i < n, shift1At (colAt (positionCol (List.replicate n q)
          (List.replicate n v) thr w)) i = b)
      unfold shift1At
      split_ifs with h0
      · exact Or.inl rfl
      · have him : i - 1 < n := by omega
        rw [show colAt (positionCol (List.replicate n q) (List.replicate n v) thr w)
            (i - 1) = positionAt (List.replicate n q) (List.replicate n v) thr w (i - 1)
          from colAt_mkCol _ (by rw [List.length_replicate]; exact him)]
        exact position_flat hthr him
    have hmul : a.mul b = PF.nan ∨ a.mul b = PF.rat 0 := by
      rcases haq with rfl | rfl <;> rcases hbq with rfl | rfl
      · exact Or.inl (PF.nan_mul _)
      · exact Or.inl (PF.nan_mul _)
      · exact Or.inl (PF.mul_nan _)
      · rw [PF.rat_mul_rat, mul_zero]
        exact Or.inr rfl
    rcases hmul with hm | hm <;> rw [hm] <;> rfl

/-- `cumprod` of a run of ones is a run of ones. -/
theorem cumprodAux_one (m : ℕ) :
    cumprodAux (PF.rat 1) (List.replicate m (PF.rat 1)) =
      List.replicate m (PF.rat 1) := by
  induction m with
  | zero => rfl
  | succ m ih =>
    rw [List.replicate_succ]
    show (if (PF.rat 1).isNaN then _ else _) = _
    rw [if_neg (by simp [PF.isNaN_rat])]
    have h1 : (PF.rat 1).mul (PF.rat 1) = PF.rat 1 := by decide
    simp only [h1, ih]

theorem equity_flat {n : ℕ} {q v thr : ℚ} {w : ℕ} (hthr : 0 ≤ thr) :
    equityCol (List.replicate n q) (List.replicate n v) thr w =
      List.replicate n (PF.rat 1) := by
  unfold equityCol
  rw [strategy_flat hthr, List.map_replicate]
  have h1 : (PF.rat 1).add (PF.rat 0) = PF.rat 1 := by decide
  rw [h1]
  exact cumprodAux_one n

theorem cummaxAux_one (m : ℕ) :
    cummaxAux (some (PF.rat 1)) (List.replicate m (PF.rat 1)) =
      List.replicate m (PF.rat 1) := by
  induction m with
  | zero => rfl
  | succ m ih =>
    rw [List.replicate_succ]
    show (if (PF.rat 1).isNaN then _ else _) = _
    rw [if_neg (by simp [PF.isNaN_rat])]
    have h1 : (if PF.lt (PF.rat 1) (PF.rat 1) then PF.rat 1 else PF.rat 1) =
        PF.rat 1 := by decide
    simp only [h1, ih]

theorem cummax_replicate_one (n : ℕ) :
    cummaxList (List.replicate n (PF.rat 1)) = List.replicate n (PF.rat 1) := by
  cases n with
  | zero => rfl
  | succ m =>
    rw [List.replicate_succ]
    show cummaxAux none _ = _
    rw [show cummaxAux none (PF.rat 1 :: List.replicate m (PF.rat 1)) =
      PF.rat 1 :: cummaxAux (some (PF.rat 1)) (List.replicate m (PF.rat 1)) by
        simp [cummaxAux, PF.isNaN, PF.rat]]
    rw [cummaxAux_one]

theorem zipWith_replicate_pf (f : PF → PF → PF) (n : ℕ) (x y : PF) :
    List.zipWith f (List.replicate n x) (List.replicate n y) =
      List.replicate n (f x y) := by
  induction n with
  | zero => rfl
  | succ m ih =>
    simp only [List.replicate_succ, List.zipWith_cons_cons, ih]

theorem ddSeries_flat (n : ℕ) :
    ddSeries (List.replicate n (PF.rat 1)) = List.replicate n (PF.rat 0) := by
  unfold ddSeries
  rw [cummax_replicate_one, zipWith_replicate_pf]
  congr 1

end VWAP

theorem getLast?_replicate_pf {n : ℕ} (h : n ≠ 0) (x : PF) :
    (List.replicate n x).getLast? = some x := by
  induction n with
  | zero => exact absurd rfl h
  | succ m ih =>
    cases m with
    | zero => rfl
    | succ m2 =>
      rw [List.replicate_succ, List.getLast?_cons, ih (Nat.succ_ne_zero m2)]
      simp [List.replicate_succ]

theorem definedVals_replicate_zero (n : ℕ) :
    definedVals (List.replicate n (PF.rat 0)) = List.replicate n (PF.rat 0) := by
  refine List.filter_eq_self.mpr ?_
  intro v hv
  rw [List.eq_of_mem_replicate hv]
  simp [PF.isNaN_rat]

theorem seriesStd_replicate_zero {n : ℕ} (h : 2 ≤ n) :
    seriesStd (List.replicate n (PF.rat 0)) = PF.rat 0 := by
  unfold seriesStd
  rw [definedVals_replicate_zero]
  rw [if_neg (by rw [List.length_replicate]; omega)]
  unfold sampleStd stdMean
  have hn0 : (n : ℚ) ≠ 0 := by
    exact_mod_cast (by omega : n ≠ 0)
  have hmean : (pfSum (List.replicate n (PF.rat 0))).div
      (PF.rat (List.replicate n (PF.rat 0)).length) = PF.rat 0 := by
    rw [pfSum_replicate_rat, mul_zero, List.length_replicate,
      PF.rat_div_rat _ _ hn0, zero_div]
  simp only [hmean, List.map_replicate]
  have hdev : ((PF.rat 0).sub (PF.rat 0)).mul ((PF.rat 0).sub (PF.rat 0)) =
      PF.rat 0 := by decide
  simp only [hdev, pfSum_replicate_rat, mul_zero, List.length_replicate]
  have hn1 : (n : ℚ) - 1 ≠ 0 := by
    have h2 : (2 : ℚ) ≤ (n : ℚ) := by exact_mod_cast h
    intro hc
    rw [sub_eq_zero] at hc
    linarith
  rw [PF.rat_div_rat _ _ hn1, zero_div]
  decide

theorem seriesMin_replicate_zero {n : ℕ} (h : n ≠ 0) :
    seriesMin (List.replicate n (PF.rat 0)) = PF.rat 0 := by
  cases n with
  | zero => exact absurd rfl h
  | succ m =>
    rw [List.replicate_succ]
    refine seriesMin_zero ?_
    intro v hv
    exact Or.inl (List.eq_of_mem_replicate hv)

/-- `VWAPReversion.get_metrics` on a constant-price series of length at least
2 with a nonnegative threshold: zero total return, `NaN` Sharpe ratio, zero
max drawdown, with no error. -/
theorem VWAP.metrics_flat_vwap {n : ℕ} {q v thr : ℚ} {w : ℕ} (h2 : 2 ≤ n)
    (hthr : 0 ≤ thr) :
    VWAP.metrics (List.replicate n q) (List.replicate n v) thr w =
      some (PF.rat 0, PF.nan, PF.rat 0) := by
  have hne : List.replicate n q ≠ ([] : List ℚ) := by
    intro hc
    have := congrArg List.length hc
    rw [List.length_replicate] at this
    simp at this
    omega
  obtain ⟨e, he, hm⟩ := VWAP.metrics_eq_vwap (List.replicate n q) (List.replicate n v)
    thr w hne
  rw [VWAP.equity_flat hthr] at he
  rw [getLast?_replicate_pf (by omega) _] at he
  have he2 : e = PF.rat 1 := by
    injection he.symm
  subst he2
  rw [hm]
  congr 1
  have htot : (PF.rat 1).sub (PF.rat 1) = PF.rat 0 := by decide
  have hstd : seriesStd (VWAP.strategyCol (List.replicate n q)
      (List.replicate n v) thr w) = PF.rat 0 := by
    rw [VWAP.strategy_flat hthr]
    exact seriesStd_replicate_zero h2
  have hbeq : (PF.rat 0).beq (PF.rat 0) = true := by decide
  have hdd : seriesMin (ddSeries (VWAP.equityCol (List.replicate n q)
      (List.replicate n v) thr w)) = PF.rat 0 := by
    rw [VWAP.equity_flat hthr, VWAP.ddSeries_flat]
    exact seriesMin_replicate_zero (by omega)
  rw [htot, hstd, hbeq, hdd]
  simp

namespace SMA

/-- On a constant series the two moving averages agree wherever defined, so
the crossover condition never fires and the signal is identically `0`. -/
theorem signal_flat_sma {n : ℕ} {q : ℚ} {sw lw vw : ℕ} {thr : ℚ} {i : ℕ} (hi : i < n) :
    signalAt (List.replicate n q) sw lw vw thr i = PF.rat 0 := by
  unfold signalAt
  have hcross : PF.lt (smaLongAt (List.replicate n q) lw i)
      (smaShortAt (List.replicate n q) sw i) = false := by
    unfold smaLongAt smaShortAt
    by_cases hlw : lw ≤ i + 1 ∧ lw ≠ 0 <;> by_cases hsw : sw ≤ i + 1 ∧ sw ≠ 0
    · rw [rollingMeanAt_const hlw.2 hlw.1 (fun j hj => ratAt_replicate (by omega)),
        rollingMeanAt_const hsw.2 hsw.1 (fun j hj => ratAt_replicate (by omega))]
      exact lt_rat_false_of_le (le_refl q)
    · rw [rollingMeanAt_undef hsw]
      exact PF.lt_nan _
    · rw [rollingMeanAt_undef hlw]
      exact PF.nan_lt _
    · rw [rollingMeanAt_undef hlw]
      exact PF.nan_lt _
  rw [hcross]
  simp

end SMA

theorem getDq_mem {l : List ℚ} {i : ℕ} (h : i < l.length) : l.getD i 0 ∈ l := by
  rw [List.getD_eq_getElem?_getD, List.getElem?_eq_getElem h]
  exact List.getElem_mem h

theorem finRat_mul_one {v : PF} (h : v.finRat) : v.mul (PF.rat 1) = v := by
  obtain ⟨q, rfl⟩ := h
  rw [PF.rat_mul_rat, mul_one]

/-- `cumprod` over rational-or-`NaN` inputs with a rational accumulator: an
output cell is `NaN` exactly when the input cell is (skipped `NaN` inputs do
not poison the running product). -/
theorem cumprod_nan_iff {l : List PF} :
    ∀ {acc : PF} (_ : acc.finRat) (_ : ∀ v ∈ l, v.finRat ∨ v = PF.nan) (t : ℕ),
      ((cumprodAux acc l).getD t PF.nan).isNaN = (l.getD t PF.nan).isNaN := by
  induction l with
  | nil => intro acc hacc hl t; rfl
  | cons v vs ih =>
    intro acc hacc hl t
    have hv := hl v (List.mem_cons_self v vs)
    have hvs : ∀ x ∈ vs, x.finRat ∨ x = PF.nan :=
      fun x hx => hl x (List.mem_cons_of_mem v hx)
    rcases hv with hvr | rfl
    · have hnan : v.isNaN = false := PF.isNaN_of_finRat hvr
      show ((if v.isNaN then _ else _ : List PF).getD t PF.nan).isNaN = _
      rw [if_neg (by simp [hnan])]
      cases t with
      | zero =>
        rw [List.getD_cons_zero, List.getD_cons_zero, hnan]
        exact PF.isNaN_of_finRat (PF.finRat_mul hacc hvr)
      | succ t2 =>
        rw [List.getD_cons_succ, List.getD_cons_succ]
        exact ih (PF.finRat_mul hacc hvr) hvs t2
    · show (((PF.nan :: cumprodAux acc vs) : List PF).getD t PF.nan).isNaN =
        ((PF.nan :: vs).getD t PF.nan).isNaN
      cases t with
      | zero => rfl
      | succ t2 =>
        rw [List.getD_cons_succ, List.getD_cons_succ]
        exact ih hacc hvs t2

/-- `cumprod` with skipped `NaN`s agrees, at every defined input position,
with `cumprod` over the series whose `NaN` factors are replaced by `1`
(i.e. undefined strategy returns contribute `0` to compounding). -/
theorem cumprod_filled {l : List PF} :
    ∀ {acc : PF} (_ : acc.finRat) (_ : ∀ v ∈ l, v.finRat ∨ v = PF.nan) (t : ℕ),
      (l.getD t PF.nan).isNaN = false →
      (cumprodAux acc l).getD t PF.nan =
        (cumprodAux acc (l.map (fun v => if v.isNaN then PF.rat 1 else v))).getD t
          PF.nan := by
  induction l with
  | nil => intro acc hacc hl t ht; rfl
  | cons v vs ih =>
    intro acc hacc hl t ht
    have hv := hl v (List.mem_cons_self v vs)
    have hvs : ∀ x ∈ vs, x.finRat ∨ x = PF.nan :=
      fun x hx => hl x (List.mem_cons_of_mem v hx)
    rcases hv with hvr | rfl
    · have hnan : v.isNaN = false := PF.isNaN_of_finRat hvr
      show (if v.isNaN then _ else _ : List PF).getD t PF.nan =
        (cumprodAux acc ((if v.isNaN then PF.rat 1 else v) :: _)).getD t PF.nan
      rw [if_neg (by simp [hnan]), if_neg (by simp [hnan])]
      show _ = (if v.isNaN then _ else _ : List PF).getD t PF.nan
      rw [if_neg (by simp [hnan])]
      cases t with
      | zero => rfl
      | succ t2 =>
        rw [List.getD_cons_succ, List.getD_cons_succ]
        refine ih (PF.finRat_mul hacc hvr) hvs t2 ?_
        rw [List.getD_cons_succ] at ht
        exact ht
    · show ((PF.nan :: cumprodAux acc vs) : List PF).getD t PF.nan =
        ((acc.mul (PF.rat 1) ::
          cumprodAux (acc.mul (PF.rat 1))
            (vs.map (fun v => if v.isNaN then PF.rat 1 else v))) : List PF).getD t
          PF.nan
      rw [finRat_mul_one hacc]
      cases t with
      | zero =>
        rw [List.getD_cons_zero] at ht
        simp [PF.isNaN] at ht
      | succ t2 =>
        rw [List.getD_cons_succ, List.getD_cons_succ]
        refine ih hacc hvs t2 ?_
        rw [List.getD_cons_succ] at ht
        exact ht

theorem ratOrNan_colAt {l : List PF} (h : ∀ v ∈ l, v.finRat ∨ v = PF.nan) (i : ℕ) :
    (colAt l i).finRat ∨ colAt l i = PF.nan := by
  unfold colAt
  rw [List.getD_eq_getElem?_getD]
  cases hgot : l[i]? with
  | none => exact Or.inr rfl
  | some x =>
    obtain ⟨hlt, hx⟩ := List.getElem?_eq_some.mp hgot
    exact hx ▸ h _ (hx ▸ List.getElem_mem hlt)

theorem VWAP.signal_finRat_vwap (close vol : List ℚ) (thr : ℚ) (w i : ℕ) :
    (VWAP.signalAt close vol thr w i).finRat := by
  unfold VWAP.signalAt
  split_ifs
  · exact PF.finRat_rat 1
  · exact PF.finRat_rat 0

theorem VWAP.position_ratOrNan_vwap (close vol : List ℚ) (thr : ℚ) (w i : ℕ) :
    (VWAP.positionAt close vol thr w i).finRat ∨
      VWAP.positionAt close vol thr w i = PF.nan := by
  unfold VWAP.positionAt diffAt
  split_ifs
  · exact Or.inr rfl
  · obtain ⟨p, hp⟩ := VWAP.signal_finRat_vwap close vol thr w i
    obtain ⟨p2, hp2⟩ := VWAP.signal_finRat_vwap close vol thr w (i - 1)
    rw [hp, hp2, PF.rat_sub_rat]
    exact Or.inl (PF.finRat_rat _)

/-- With nonzero close prices the VWAP strategy-return column consists of
finite rationals only (the `fillna(0)` step removes the `NaN`s). -/
theorem VWAP.strategy_finRat (close vol : List ℚ) (thr : ℚ) (w : ℕ)
    (hc : ∀ x ∈ close, x ≠ 0) :
    ∀ v ∈ VWAP.strategyCol close vol thr w, v.finRat := by
  intro v hv
  obtain ⟨y, hy, rfl⟩ := List.mem_map.mp hv
  obtain ⟨a, ha, b, hb, rfl⟩ := mem_zipWith hy
  refine PF.finRat_fillna ?_
  have haq : a.finRat ∨ a = PF.nan := by
    obtain ⟨i, hin, rfl⟩ := (by
      simpa [VWAP.returnCol, mkCol] using ha :
      ∃ i < close.length, pctChangeAt (ratAt close) i = a)
    unfold pctChangeAt
    split_ifs with h0
    · exact Or.inr rfl
    · have hprev : close.getD (i - 1) 0 ≠ 0 := hc _ (getDq_mem (by omega))
      rw [show ratAt close i = PF.rat (close.getD i 0) from rfl,
        show ratAt close (i - 1) = PF.rat (close.getD (i - 1) 0) from rfl,
        PF.rat_div_rat _ _ hprev, PF.rat_sub_rat]
      exact Or.inl (PF.finRat_rat _)
  have hbq : b.finRat ∨ b = PF.nan := by
    obtain ⟨i, hin, rfl⟩ := (by
      simpa [shift1List, VWAP.positionCol, mkCol] using hb :
      ∃ i < close.length,
        shift1At (colAt (VWAP.positionCol close vol thr w)) i = b)
    unfold shift1At
    split_ifs with h0
    · exact Or.inr rfl
    · refine ratOrNan_colAt ?_ (i - 1)
      intro x hx
      obtain ⟨j, _, rfl⟩ := (by
        simpa [VWAP.positionCol, mkCol] using hx :
        ∃ j < close.length, VWAP.positionAt close vol thr w j = x)
      exact VWAP.position_ratOrNan_vwap close vol thr w j
  rcases haq with har | rfl
  · rcases hbq with hbr | rfl
    · exact Or.inl (PF.finRat_mul har hbr)
    · exact Or.inr (PF.mul_nan _)
  · exact Or.inr (PF.nan_mul _)

theorem RSIBB.signal_finRat_rsibb (close : List ℚ) (p w : ℕ) (k : ℚ) (i : ℕ) :
    (RSIBB.signalAt close p w k i).finRat := by
  unfold RSIBB.signalAt
  split_ifs
  · exact PF.finRat_rat 1
  · exact PF.finRat_rat 0

theorem RSIBB.position_ratOrNan_rsibb (close : List ℚ) (p w : ℕ) (k : ℚ) (i : ℕ) :
    (RSIBB.positionAt close p w k i).finRat ∨
      RSIBB.positionAt close p w k i = PF.nan := by
  unfold RSIBB.positionAt diffAt
  split_ifs
  · exact Or.inr rfl
  · obtain ⟨q1, hq1⟩ := RSIBB.signal_finRat_rsibb close p w k i
    obtain ⟨q2, hq2⟩ := RSIBB.signal_finRat_rsibb close p w k (i - 1)
    rw [hq1, hq2, PF.rat_sub_rat]
    exact Or.inl (PF.finRat_rat _)

theorem RSIBB.closeKept_val (close : List ℚ) (p w : ℕ) (k : ℚ)
    (hc : ∀ x ∈ close, x ≠ 0) (t : ℕ) :
    colAt (RSIBB.closeKept close p w k) t = PF.nan ∨
      ∃ q : ℚ, q ≠ 0 ∧ colAt (RSIBB.closeKept close p w k) t = PF.rat q := by
  unfold colAt
  rw [List.getD_eq_getElem?_getD]
  cases hgot : (RSIBB.closeKept close p w k)[t]? with
  | none => exact Or.inl rfl
  | some x =>
    obtain ⟨hlt, hx⟩ := List.getElem?_eq_some.mp hgot
    have hmem : x ∈ RSIBB.closeKept close p w k := hx ▸ List.getElem_mem hlt
    obtain ⟨j, hj, rfl⟩ := List.mem_map.mp hmem
    have hjn : j < close.length := by
      have h2 := hj
      simp only [RSIBB.keptIdx, List.mem_filter, List.mem_range] at h2
      exact h2.1
    refine Or.inr ⟨close.getD j 0, hc _ (getDq_mem hjn), rfl⟩

/-- With nonzero close prices the (trimmed) RSIBB strategy-return column
consists of finite rationals and `NaN`s only. -/
theorem RSIBB.strategy_ratOrNan (close : List ℚ) (p w : ℕ) (k : ℚ)
    (hc : ∀ x ∈ close, x ≠ 0) :
    ∀ v ∈ RSIBB.strategyCol close p w k, v.finRat ∨ v = PF.nan := by
  intro v hv
  obtain ⟨a, ha, b, hb, rfl⟩ := mem_zipWith hv
  have haq : a.finRat ∨ a = PF.nan := by
    obtain ⟨i, hin, rfl⟩ := (by
      simpa [RSIBB.returnCol, pctChangeList, mkCol] using ha :
      ∃ i < (RSIBB.closeKept close p w k).length,
        pctChangeAt (colAt (RSIBB.closeKept close p w k)) i = a)
    unfold pctChangeAt
    split_ifs with h0
    · exact Or.inr rfl
    · rcases RSIBB.closeKept_val close p w k hc (i - 1) with hp | ⟨q, hq, hp⟩
      · rw [hp, PF.div_nan, PF.nan_sub]
        exact Or.inr rfl
      · rcases RSIBB.closeKept_val close p w k hc i with hx | ⟨q2, _, hx⟩
        · rw [hx, PF.nan_div, PF.nan_sub]
          exact Or.inr rfl
        · rw [hx, hp, PF.rat_div_rat _ _ hq, PF.rat_sub_rat]
          exact Or.inl (PF.finRat_rat _)
  have hbq : b.finRat ∨ b = PF.nan := by
    obtain ⟨i, hin, rfl⟩ := (by
      simpa [shift1List, mkCol] using hb :
      ∃ i < (RSIBB.positionKept close p w k).length,
        shift1At (colAt (RSIBB.positionKept close p w k)) i = b)
    unfold shift1At
    split_ifs with h0
    · exact Or.inr rfl
    · refine ratOrNan_colAt ?_ (i - 1)
      intro x hx
      obtain ⟨j, _, rfl⟩ := List.mem_map.mp hx
      exact RSIBB.position_ratOrNan_rsibb close p w k j
  rcases haq with har | rfl
  · rcases hbq with hbr | rfl
    · exact Or.inl (PF.finRat_mul har hbr)
    · exact Or.inr (PF.mul_nan _)
  · exact Or.inr (PF.nan_mul _)

theorem cumprod_finRat {l : List PF} :
    ∀ {acc : PF} (_ : acc.finRat) (_ : ∀ v ∈ l, v.finRat),
      ∀ x ∈ cumprodAux acc l, x.finRat := by
  induction l with
  | nil => intro acc _ _ x hx; simp [cumprodAux] at hx
  | cons v vs ih =>
    intro acc hacc hl x hx
    have hvr : v.finRat := hl v (List.mem_cons_self v vs)
    have hvs : ∀ y ∈ vs, y.finRat := fun y hy => hl y (List.mem_cons_of_mem v hy)
    rw [show cumprodAux acc (v :: vs) =
      acc.mul v :: cumprodAux (acc.mul v) vs by
        show (if v.isNaN then _ else _) = _
        rw [if_neg (by simp [PF.isNaN_of_finRat hvr])]] at hx
    rcases List.mem_cons.mp hx with rfl | hx
    · exact PF.finRat_mul hacc hvr
    · exact ih (PF.finRat_mul hacc hvr) hvs x hx

theorem VWAP.signalCol_flat_vwap {n : ℕ} {q v thr : ℚ} {w : ℕ} (hthr : 0 ≤ thr) :
    VWAP.signalCol (List.replicate n q) (List.replicate n v) thr w =
      List.replicate n (PF.rat 0) := by
  refine List.eq_replicate_iff.mpr ⟨by simp [VWAP.signalCol, mkCol], ?_⟩
  intro x hx
  obtain ⟨i, hi, rfl⟩ := (by
    simpa [VWAP.signalCol, mkCol] using hx :
    ∃ i < n, VWAP.signalAt (List.replicate n q) (List.replicate n v) thr w i = x)
  exact VWAP.signal_flat_vwap hthr hi

theorem SMA.signalCol_flat_sma {n : ℕ} {q : ℚ} {sw lw vw : ℕ} {thr : ℚ} :
    SMA.signalCol (List.replicate n q) sw lw vw thr =
      List.replicate n (PF.rat 0) := by
  refine List.eq_replicate_iff.mpr ⟨by simp [SMA.signalCol, mkCol], ?_⟩
  intro x hx
  obtain ⟨i, hi, rfl⟩ := (by
    simpa [SMA.signalCol, mkCol] using hx :
    ∃ i < n, SMA.signalAt (List.replicate n q) sw lw vw thr i = x)
  exact SMA.signal_flat_sma hi

/-! ## Claims -/

/-- Claim C7 (corrected): only `SMACrossover.__init__` applies the instrument
filter and raises on an empty subset; `RSIBB.__init__` and
`VWAPReversion.__init__` store the frame unchecked (no symbol filter, no
emptiness check), so Strategy construction in general does not raise on an
empty subset. -/
theorem claim_C7 (f : InputFrame) (sym : String)
    (hs : f.hasSymbolCol = true)
    (he : (f.rows.filter (fun r => r.symbol = sym)).isEmpty = true) :
    smaInit f sym = Except.error ("No data found for symbol: " ++ sym) ∧
      rsibbInit f = Except.ok f ∧ vwapInit f = Except.ok f := by
  refine ⟨?_, rfl, rfl⟩
  unfold smaInit
  rw [hs]
  simp only [if_true, he]

/-- Claim C7 witness: a two-instrument frame queried for an absent symbol. -/
theorem claim_C7_witness :
    smaInit (InputFrame.mk true [InputRow.mk "ETHBTC" 1 1]) "LTCBTC" =
        Except.error ("No data found for symbol: " ++ "LTCBTC") ∧
      rsibbInit (InputFrame.mk true [InputRow.mk "ETHBTC" 1 1]) =
        Except.ok (InputFrame.mk true [InputRow.mk "ETHBTC" 1 1]) ∧
      vwapInit (InputFrame.mk true [InputRow.mk "ETHBTC" 1 1]) =
        Except.ok (InputFrame.mk true [InputRow.mk "ETHBTC" 1 1]) :=
  claim_C7 (InputFrame.mk true [InputRow.mk "ETHBTC" 1 1]) "LTCBTC" rfl (by decide)

/-- Claim C7 counterexample: `RSIBB` and `VWAPReversion` construction succeeds
silently even on a completely empty frame, contradicting "construction never
silently returns a strategy over an empty or degenerate subset". -/
theorem claim_C7_counterexample :
    rsibbInit (InputFrame.mk true []) = Except.ok (InputFrame.mk true []) ∧
      vwapInit (InputFrame.mk true []) = Except.ok (InputFrame.mk true []) :=
  ⟨rfl, rfl⟩

/-- Claim C10 (corrected): `SMACrossover.__init__` filters only when a `symbol`
column is present, and for a *nonempty* frame without that column
construction succeeds with the frame unchanged; but the emptiness check runs
unconditionally, so the configuration error is also reachable without a
`symbol` column (for an empty input frame). -/
theorem claim_C10 (f : InputFrame) (sym : String) (hs : f.hasSymbolCol = false)
    (hne : f.rows ≠ []) : smaInit f sym = Except.ok f := by
  unfold smaInit
  rw [hs]
  simp only [Bool.false_eq_true, if_false]
  rw [if_neg (by simpa [List.isEmpty_iff] using hne)]

/-- Claim C10 witness: a one-row frame without a `symbol` column constructs
successfully for an arbitrary requested symbol. -/
theorem claim_C10_witness :
    smaInit (InputFrame.mk false [InputRow.mk "" 1 1]) "ETHBTC" =
      Except.ok (InputFrame.mk false [InputRow.mk "" 1 1]) :=
  claim_C10 (InputFrame.mk false [InputRow.mk "" 1 1]) "ETHBTC" rfl (by decide)

/-- Claim C10 counterexample: an empty frame *without* a `symbol` column still
raises the configuration error, refuting "construction succeeds ... for every
input frame lacking that column" and "the empty-subset configuration error is
only reachable for frames carrying a 'symbol' column". -/
theorem claim_C10_counterexample :
    smaInit (InputFrame.mk false []) "ETHBTC" =
      Except.error ("No data found for symbol: " ++ "ETHBTC") := rfl

/-- Claim C1 (code bug): both `run_backtest` implementations compute
`Strategy = Return * Position.shift(1)` (the previous bar's position
*delta*), not `Return * Signal.shift(1)` (the previous bar's held signal) as
the spec states.  At the inputs below the two formulas disagree: for
VWAPReversion the held signal at bar 2 is `1` so the spec value at bar 3 is
`Return[3] * 1 = 1/5`, while the code (position delta `0`) yields `0`; for
RSIBB the spec value at trimmed bar 2 is `-1/2`, while the code yields `0`. -/
theorem claim_C1_code_divergence :
    VWAP.strategyCol [100, 50, 25, 30] [1, 1, 1, 1] (1/100) 2 =
      [PF.rat 0, PF.rat 0, PF.rat (-(1/2)), PF.rat 0] ∧
    (VWAP.returnCol [100, 50, 25, 30]).getD 3 PF.nan = PF.rat (1/5) ∧
    VWAP.signalAt [100, 50, 25, 30] [1, 1, 1, 1] (1/100) 2 2 = PF.rat 1 ∧
    ((VWAP.returnCol [100, 50, 25, 30]).getD 3 PF.nan).mul
      (VWAP.signalAt [100, 50, 25, 30] [1, 1, 1, 1] (1/100) 2 2) = PF.rat (1/5) ∧
    ¬ PF.rat (1/5) = PF.rat 0 ∧
    RSIBB.strategyCol [16, 8, 4, 2, 1] 2 2 0 =
      [PF.nan, PF.rat (-(1/2)), PF.rat 0, PF.rat 0] ∧
    (RSIBB.returnCol [16, 8, 4, 2, 1] 2 2 0).getD 2 PF.nan = PF.rat (-(1/2)) ∧
    (RSIBB.signalKept [16, 8, 4, 2, 1] 2 2 0).getD 1 PF.nan = PF.rat 1 ∧
    ((RSIBB.returnCol [16, 8, 4, 2, 1] 2 2 0).getD 2 PF.nan).mul
      ((RSIBB.signalKept [16, 8, 4, 2, 1] 2 2 0).getD 1 PF.nan) =
      PF.rat (-(1/2)) ∧
    ¬ PF.rat (-(1/2)) = PF.rat 0 := by
  decide

/-- Claim C4 (code bug): on a constant-price 300-bar series every signal column
is identically `0` and `VWAPReversion.get_metrics` returns
`(0, NaN, 0)` as the spec demands — but `RSIBB.get_metrics` raises
`IndexError` (modelled `none`): the flat series makes the RSI `0/0` at every
row, `dropna` empties the frame, and `Equity.iloc[-1]` is out of bounds. -/
theorem claim_C4_flat_series :
    RSIBB.metrics (List.replicate 300 100) 14 20 2 = none ∧
    VWAP.metrics (List.replicate 300 100) (List.replicate 300 1) (1/100) 20 =
      some (PF.rat 0, PF.nan, PF.rat 0) ∧
    VWAP.signalCol (List.replicate 300 100) (List.replicate 300 1) (1/100) 20 =
      List.replicate 300 (PF.rat 0) ∧
    SMA.signalCol (List.replicate 300 100) 50 200 20 (5/1000) =
      List.replicate 300 (PF.rat 0) ∧
    RSIBB.signalKept (List.replicate 300 100) 14 20 2 = [] := by
  refine ⟨RSIBB.metrics_flat_rsibb 300 100 14 20 2,
    VWAP.metrics_flat_vwap (by norm_num) (by norm_num),
    VWAP.signalCol_flat_vwap (by norm_num), SMA.signalCol_flat_sma, ?_⟩
  unfold RSIBB.signalKept
  rw [RSIBB.kept_flat]
  rfl

/-- Claim C2 (corrected): length is preserved by the VWAPReversion backtest and
the SMACrossover signal frame, but the RSIBB equity curve has exactly one
entry per row surviving `dropna` — strictly fewer than the input rows for
every nonempty input, since the RSI at row 0 is always undefined. -/
theorem claim_C2 (close vol : List ℚ) (thr k vthr : ℚ) (w sw lw vw p bw : ℕ)
    (hc : close ≠ []) :
    (VWAP.equityCol close vol thr w).length = close.length ∧
    (SMA.signalCol close sw lw vw vthr).length = close.length ∧
    (RSIBB.equityCol close p bw k).length = (RSIBB.keptIdx close p bw k).length ∧
    (RSIBB.equityCol close p bw k).length < close.length := by
  refine ⟨VWAP.length_equityCol close vol thr w, by simp [SMA.signalCol, mkCol],
    RSIBB.length_equityCol_eq_kept close p bw k, ?_⟩
  rw [RSIBB.length_equityCol_eq_kept]
  exact RSIBB.kept_lt_length close p bw k hc

/-- Claim C2 witness: a three-bar input. -/
theorem claim_C2_witness :
    (VWAP.equityCol [1, 2, 1] [1, 1, 1] (1/100) 2).length = ([1, 2, 1] : List ℚ).length ∧
    (SMA.signalCol [1, 2, 1] 2 3 2 (5/1000)).length = ([1, 2, 1] : List ℚ).length ∧
    (RSIBB.equityCol [1, 2, 1] 2 2 0).length = (RSIBB.keptIdx [1, 2, 1] 2 2 0).length ∧
    (RSIBB.equityCol [1, 2, 1] 2 2 0).length < ([1, 2, 1] : List ℚ).length :=
  claim_C2 [1, 2, 1] [1, 1, 1] (1/100) 0 (5/1000) 2 2 3 2 2 2 (by decide)

/-- Claim C2 counterexample: the RSIBB equity curve on a 3-bar input has 2
entries, refuting `len(EquityCurve) == len(PriceSeries)` for that variant. -/
theorem claim_C2_counterexample :
    ¬ (RSIBB.equityCol [1, 2, 1] 2 2 0).length = ([1, 2, 1] : List ℚ).length := by
  decide

/-- Claim C3 (corrected): undefined strategy returns contribute `0` to equity
compounding in both variants (pandas `cumprod` skips `NaN` factors, so every
defined equity entry matches the curve computed from the zero-filled strategy
returns), and the VWAP equity curve has no undefined entries; but the RSIBB
equity curve — which lacks the `fillna(0)` step — is undefined exactly where
its strategy return is undefined, so it does contain gaps.  Stated for frames
with nonzero close prices. -/
theorem claim_C3 (close vol : List ℚ) (thr k : ℚ) (w p bw : ℕ)
    (hc : ∀ x ∈ close, x ≠ 0) :
    (∀ v ∈ VWAP.equityCol close vol thr w, v.isNaN = false) ∧
    (∀ t, ((RSIBB.equityCol close p bw k).getD t PF.nan).isNaN =
      ((RSIBB.strategyCol close p bw k).getD t PF.nan).isNaN) ∧
    (∀ t, ((RSIBB.strategyCol close p bw k).getD t PF.nan).isNaN = false →
      (RSIBB.equityCol close p bw k).getD t PF.nan =
        (cumprodList ((RSIBB.strategyCol close p bw k).map
          (fun s => (PF.rat 1).add (fillna0 s)))).getD t PF.nan) := by
  have hrs := RSIBB.strategy_ratOrNan close p bw k hc
  have hfac : ∀ v ∈ (RSIBB.strategyCol close p bw k).map
      (fun s => (PF.rat 1).add s), v.finRat ∨ v = PF.nan := by
    intro v hv
    obtain ⟨s, hs, rfl⟩ := List.mem_map.mp hv
    rcases hrs s hs with ⟨q, rfl⟩ | rfl
    · rw [PF.rat_add_rat]
      exact Or.inl (PF.finRat_rat _)
    · rw [PF.add_nan]
      exact Or.inr rfl
  have hfacnan : ∀ t, (((RSIBB.strategyCol close p bw k).map
      (fun s => (PF.rat 1).add s)).getD t PF.nan).isNaN =
      ((RSIBB.strategyCol close p bw k).getD t PF.nan).isNaN := by
    intro t
    by_cases ht : t < (RSIBB.strategyCol close p bw k).length
    · rw [getD_map_lt _ ht]
      rcases hrs _ (getD_mem ht) with ⟨q, hq⟩ | hq <;> rw [hq]
      · rw [PF.rat_add_rat]
        rfl
      · rw [PF.add_nan]
    · have ht2 : ¬ t < ((RSIBB.strategyCol close p bw k).map
          (fun s => (PF.rat 1).add s)).length := by
        rw [List.length_map]
        exact ht
      rw [List.getD_eq_getElem?_getD, List.getElem?_eq_none (by omega),
        List.getD_eq_getElem?_getD, List.getElem?_eq_none (by omega)]
  refine ⟨?_, ?_, ?_⟩
  · intro v hv
    have := cumprod_finRat (PF.finRat_rat 1) (fun x hx => by
      obtain ⟨s, hs, rfl⟩ := List.mem_map.mp hx
      obtain ⟨q, hq⟩ := VWAP.strategy_finRat close vol thr w hc s hs
      rw [hq, PF.rat_add_rat]
      exact PF.finRat_rat _) v hv
    exact PF.isNaN_of_finRat this
  · intro t
    rw [show RSIBB.equityCol close p bw k = cumprodList
      ((RSIBB.strategyCol close p bw k).map (fun s => (PF.rat 1).add s)) from rfl]
    unfold cumprodList
    rw [cumprod_nan_iff (PF.finRat_rat 1) hfac t]
    exact hfacnan t
  · intro t ht
    have hmap : (List.map (fun s => (PF.rat 1).add s)
        (RSIBB.strategyCol close p bw k)).map
        (fun v => if v.isNaN then PF.rat 1 else v) =
        (RSIBB.strategyCol close p bw k).map
          (fun s => (PF.rat 1).add (fillna0 s)) := by
      rw [List.map_map]
      refine List.map_congr_left ?_
      intro s hs
      rcases hrs s hs with ⟨q, rfl⟩ | rfl
      · show (if ((PF.rat 1).add (PF.rat q)).isNaN then PF.rat 1
          else (PF.rat 1).add (PF.rat q)) = (PF.rat 1).add (fillna0 (PF.rat q))
        rw [PF.rat_add_rat, if_neg (by simp [PF.isNaN_rat])]
        unfold fillna0
        rw [if_neg (by simp [PF.isNaN_rat]), PF.rat_add_rat]
      · show (if ((PF.rat 1).add PF.nan).isNaN then PF.rat 1
          else (PF.rat 1).add PF.nan) = (PF.rat 1).add (fillna0 PF.nan)
        rw [PF.add_nan]
        rfl
    rw [show RSIBB.equityCol close p bw k = cumprodList
      ((RSIBB.strategyCol close p bw k).map (fun s => (PF.rat 1).add s)) from rfl]
    unfold cumprodList
    rw [cumprod_filled (PF.finRat_rat 1) hfac t (by rw [hfacnan t]; exact ht)]
    rw [hmap]

/-- Claim C3 witness: a two-bar RSIBB run. -/
theorem claim_C3_witness :
    ((RSIBB.equityCol [1, 2] 2 2 0).getD 0 PF.nan).isNaN =
      ((RSIBB.strategyCol [1, 2] 2 2 0).getD 0 PF.nan).isNaN :=
  (claim_C3 [1, 2] [1, 1] (1/100) 0 2 2 2 (by decide)).2.1 0

/-- Claim C3 counterexample: the RSIBB equity curve on `[1, 2]` is the
single-entry curve `[NaN]` — an undefined entry, refuting "the equity curve
returned by run_backtest contains no undefined entries". -/
theorem claim_C3_counterexample :
    RSIBB.equityCol [1, 2] 2 2 0 = [PF.nan] := by
  decide

/-- Claim C5 (corrected): when the trailing average loss is exactly `0`, the
RSI is forced to `100` whenever the average gain is positive
(`rs = gain/0 = inf`, `100 - 100/(1+inf) = 100`), and is undefined (`NaN`,
from `0/0`) only when the average gain is `0` as well — not unconditionally
undefined as the claim states. -/
theorem claim_C5 (close : List ℚ) (p i : ℕ) (g : ℚ) (hg : 0 ≤ g)
    (hgain : RSIBB.avgGainAt close p i = PF.rat g)
    (hloss : RSIBB.avgLossAt close p i = PF.rat 0) :
    RSIBB.rsiAt close p i = if g = 0 then PF.nan else PF.rat 100 := by
  unfold RSIBB.rsiAt RSIBB.rsAt
  rw [hgain, hloss]
  by_cases hg0 : g = 0
  · subst hg0
    rw [PF.zero_div_zero, PF.add_nan, PF.div_nan, PF.sub_nan, if_pos rfl]
  · have hgpos : 0 < g := lt_of_le_of_ne hg (Ne.symm hg0)
    rw [PF.rat_div_zero_pos g hgpos]
    have h1 : (PF.rat 1).add PF.inf = PF.inf := rfl
    have h2 : (PF.rat 100).div PF.inf = PF.rat 0 := rfl
    have h3 : (PF.rat 100).sub (PF.rat 0) = PF.rat 100 := by decide
    rw [h1, h2, h3, if_neg hg0]

/-- Claim C5 witness: on `[1, 2, 3]` with period 2, the average loss at index 2
is `0`, the average gain is `1`, and the RSI is the forced value `100`. -/
theorem claim_C5_witness :
    RSIBB.rsiAt [1, 2, 3] 2 2 = if (1 : ℚ) = 0 then PF.nan else PF.rat 100 :=
  claim_C5 [1, 2, 3] 2 2 1 (by norm_num) (by decide) (by decide)

/-- Claim C5 counterexample: at that input the average loss is `0` and the
average gain is positive, yet the RSI is the defined value `100` — not
undefined as the claim requires. -/
theorem claim_C5_counterexample :
    RSIBB.avgLossAt [1, 2, 3] 2 2 = PF.rat 0 ∧
    PF.lt (PF.rat 0) (RSIBB.avgGainAt [1, 2, 3] 2 2) = true ∧
    RSIBB.rsiAt [1, 2, 3] 2 2 = PF.rat 100 ∧
    (RSIBB.rsiAt [1, 2, 3] 2 2).isNaN = false := by
  decide

/-- Claim C6 (corrected): the position column is the elementwise `diff` of the
signal column — `position[t] = signal[t] - signal[t-1]` for `t >= 1` — but
its first element is `NaN` (undefined), not the defined value `0`; and the
RSIBB variant returns the diffs of the *original* (pre-`dropna`) signal
sampled at the retained rows, not the diff of the returned frame's signal. -/
theorem claim_C6 (close vol : List ℚ) (thr vthr k : ℚ) (w sw lw vw p bw : ℕ)
    (hc : close ≠ []) :
    (VWAP.positionCol close vol thr w).getD 0 PF.nan = PF.nan ∧
    (∀ i, 1 ≤ i → i < close.length →
      (VWAP.positionCol close vol thr w).getD i PF.nan =
        (VWAP.signalAt close vol thr w i).sub (VWAP.signalAt close vol thr w (i - 1))) ∧
    (SMA.positionCol close sw lw vw vthr).getD 0 PF.nan = PF.nan ∧
    (∀ i, 1 ≤ i → i < close.length →
      (SMA.positionCol close sw lw vw vthr).getD i PF.nan =
        (SMA.signalAt close sw lw vw vthr i).sub (SMA.signalAt close sw lw vw vthr (i - 1))) ∧
    RSIBB.positionKept close p bw k =
      (RSIBB.keptIdx close p bw k).map (diffAt (RSIBB.signalAt close p bw k)) := by
  have hn : 0 < close.length := List.length_pos.mpr hc
  refine ⟨?_, ?_, ?_, ?_, rfl⟩
  · rw [show (VWAP.positionCol close vol thr w).getD 0 PF.nan =
      VWAP.positionAt close vol thr w 0 from colAt_mkCol _ hn]
    rfl
  · intro i h1 hi
    rw [show (VWAP.positionCol close vol thr w).getD i PF.nan =
      VWAP.positionAt close vol thr w i from colAt_mkCol _ hi]
    unfold VWAP.positionAt diffAt
    rw [if_neg (by omega)]
  · rw [show (SMA.positionCol close sw lw vw vthr).getD 0 PF.nan =
      SMA.positionAt close sw lw vw vthr 0 from colAt_mkCol _ hn]
    rfl
  · intro i h1 hi
    rw [show (SMA.positionCol close sw lw vw vthr).getD i PF.nan =
      SMA.positionAt close sw lw vw vthr i from colAt_mkCol _ hi]
    unfold SMA.positionAt diffAt
    rw [if_neg (by omega)]

/-- Claim C6 witness: a two-bar VWAP frame. -/
theorem claim_C6_witness :
    (VWAP.positionCol [1, 2] [1, 1] (1/100) 2).getD 0 PF.nan = PF.nan ∧
    (VWAP.positionCol [1, 2] [1, 1] (1/100) 2).getD 1 PF.nan =
      (VWAP.signalAt [1, 2] [1, 1] (1/100) 2 1).sub
        (VWAP.signalAt [1, 2] [1, 1] (1/100) 2 0) :=
  ⟨(claim_C6 [1, 2] [1, 1] (1/100) (5/1000) 0 2 2 3 2 2 2 (by decide)).1,
   (claim_C6 [1, 2] [1, 1] (1/100) (5/1000) 0 2 2 3 2 2 2 (by decide)).2.1 1
     (by norm_num) (by norm_num)⟩

/-- Claim C6 counterexample: the first element of the position column is `NaN`,
not the defined value `0`. -/
theorem claim_C6_counterexample :
    ((VWAP.positionCol [1, 2] [1, 1] (1/100) 2).getD 0 PF.nan).isNaN = true ∧
    ¬ (VWAP.positionCol [1, 2] [1, 1] (1/100) 2).getD 0 PF.nan = PF.rat 0 := by
  decide

/-- Claim C8 (corrected): `get_metrics` computes the max drawdown as
`min(equity/cummax - 1)` with `NaN` skipping; for VWAPReversion on any
nonempty frame it is `<= 0`, and exactly `0` when the equity curve never dips
below its running maximum.  (For RSIBB the bound can fail only by being
`NaN`: an all-undefined equity curve — e.g. a single retained row — yields an
undefined drawdown, see the counterexample.) -/
theorem claim_C8 (close vol : List ℚ) (thr : ℚ) (w : ℕ) (hc : close ≠ []) :
    (VWAP.metrics close vol thr w).map (fun m => m.2.2) =
      some (seriesMin (ddSeries (VWAP.equityCol close vol thr w))) ∧
    (seriesMin (ddSeries (VWAP.equityCol close vol thr w))).le (PF.rat 0) = true ∧
    ((∀ t < close.length, (VWAP.equityCol close vol thr w).getD t PF.nan =
        (cummaxList (VWAP.equityCol close vol thr w)).getD t PF.nan) →
      seriesMin (ddSeries (VWAP.equityCol close vol thr w)) = PF.rat 0) := by
  obtain ⟨e, _, hm⟩ := VWAP.metrics_eq_vwap close vol thr w hc
  refine ⟨?_, vwap_dd_le_zero close vol thr w hc, vwap_dd_zero close vol thr w hc⟩
  rw [hm]
  rfl

/-- Claim C8 witness: a flat two-bar frame, whose equity curve equals its
running maximum, has drawdown exactly `0`. -/
theorem claim_C8_witness :
    (VWAP.metrics [1, 1] [1, 1] (1/100) 1).map (fun m => m.2.2) =
      some (seriesMin (ddSeries (VWAP.equityCol [1, 1] [1, 1] (1/100) 1))) ∧
    seriesMin (ddSeries (VWAP.equityCol [1, 1] [1, 1] (1/100) 1)) = PF.rat 0 :=
  ⟨(claim_C8 [1, 1] [1, 1] (1/100) 1 (by decide)).1,
   (claim_C8 [1, 1] [1, 1] (1/100) 1 (by decide)).2.2 (by decide)⟩

/-- Claim C8 counterexample: the RSIBB metrics on `[1, 2]` (one retained row,
equity `[NaN]`) report an *undefined* max drawdown, refuting
"`max_drawdown <= 0` always" and "a curve that never dips below its running
peak yields `0`, not undefined". -/
theorem claim_C8_counterexample :
    (RSIBB.metrics [1, 2] 2 2 0).map (fun m => m.2.2) = some PF.nan ∧
    PF.nan.le (PF.rat 0) = false := by
  decide

/-- Claim C9 (confirmed): both `get_metrics` implementations report the Sharpe
ratio as `NaN` when `std(strategy_return) == 0` — taking the `else` branch,
never dividing — and otherwise return
`mean(strategy_return)/std(strategy_return) * sqrt(252*24*60)`. -/
theorem claim_C9 (close vol close2 : List ℚ) (thr k : ℚ) (w p bw : ℕ)
    (hc : close ≠ []) (hr : RSIBB.equityCol close2 p bw k ≠ []) :
    ((seriesStd (VWAP.strategyCol close vol thr w)).beq (PF.rat 0) = true →
      (VWAP.metrics close vol thr w).map (fun m => m.2.1) = some PF.nan) ∧
    ((seriesStd (VWAP.strategyCol close vol thr w)).beq (PF.rat 0) = false →
      (VWAP.metrics close vol thr w).map (fun m => m.2.1) =
        some (((seriesMean (VWAP.strategyCol close vol thr w)).div
          (seriesStd (VWAP.strategyCol close vol thr w))).mul
          (PF.sqrt (PF.rat (252 * 24 * 60))))) ∧
    ((seriesStd (RSIBB.strategyCol close2 p bw k)).beq (PF.rat 0) = true →
      (RSIBB.metrics close2 p bw k).map (fun m => m.2.1) = some PF.nan) ∧
    ((seriesStd (RSIBB.strategyCol close2 p bw k)).beq (PF.rat 0) = false →
      (RSIBB.metrics close2 p bw k).map (fun m => m.2.1) =
        some (((seriesMean (RSIBB.strategyCol close2 p bw k)).div
          (seriesStd (RSIBB.strategyCol close2 p bw k))).mul
          (PF.sqrt (PF.rat (252 * 24 * 60))))) := by
  obtain ⟨e, _, hm⟩ := VWAP.metrics_eq_vwap close vol thr w hc
  obtain ⟨e2, _, hm2⟩ := RSIBB.metrics_eq_rsibb close2 p bw k hr
  refine ⟨?_, ?_, ?_, ?_⟩ <;> intro h
  · rw [hm]
    simp [h]
  · rw [hm]
    simp [h]
  · rw [hm2]
    simp [h]
  · rw [hm2]
    simp [h]

/-- Claim C9 witness: a VWAP frame with one round-trip trade has strategy
returns `[0, 0, 1, 0]`, sample standard deviation `1/2 != 0`, and Sharpe
ratio `(1/4)/(1/2) * sqrt(362880) = (1/2)*sqrt(362880)`; a flat RSIBB frame
exercises the `NaN` branch. -/
theorem claim_C9_witness :
    (VWAP.metrics [10, 1, 2, 2] [1, 1, 1, 1] (1/100) 2).map (fun m => m.2.1) =
      some (((seriesMean (VWAP.strategyCol [10, 1, 2, 2] [1, 1, 1, 1] (1/100) 2)).div
        (seriesStd (VWAP.strategyCol [10, 1, 2, 2] [1, 1, 1, 1] (1/100) 2))).mul
        (PF.sqrt (PF.rat (252 * 24 * 60)))) ∧
    (RSIBB.metrics [1, 2] 2 2 0).map (fun m => m.2.1) = some PF.nan :=
  ⟨(claim_C9 [10, 1, 2, 2] [1, 1, 1, 1] [1, 2] (1/100) 0 2 2 2 (by decide)
      (by decide)).2.1 (by decide),
   (claim_C9 [10, 1, 2, 2] [1, 1, 1, 1] [1, 2] (1/100) 0 2 2 2 (by decide)
      (by decide)).2.2.2 (by decide)⟩

end Backtest
